import Mathlib

/-!
# Dispatcher / worker protocol of `system_IPC.cpp`

A shallow embedding of the two roles of the executable:

* `WorkerMain` (lines 29-57): the worker loop that reads a 4-byte duration,
  sleeps, and writes the same 4 bytes back;
* the dispatcher part of `main` (lines 190-254): the poll phase, the dispatch
  phase, the loop exit test and the shutdown writes.

Pipes are modelled as the list of bytes currently buffered in them.  The outcome
of every system call that can fail is supplied by an environment, so that every
branch of the source is reachable in the model.
-/

namespace SystemIPC

/-! ## Data model -/

/-- A job of the queue (`struct Job`, lines 18-21). -/
structure Job where
  type : Int
  duration : Int
deriving DecidableEq, Repr

/-- The dispatcher's record of one worker (`struct WorkerInfo`, lines 9-15).
`hWrite` and `hRead` stand for the pipes behind the two handles: the bytes buffered
in the dispatcher-to-worker pipe and in the worker-to-dispatcher pipe.  The process
handle plays no part in the protocol and is left out. -/
structure WorkerInfo where
  worker_type : Int
  busy : Bool
  hWrite : List Nat
  hRead : List Nat
deriving DecidableEq, Repr

/-- What the dispatcher prints, with the position of the worker in the `workers`
vector added as instrumentation: `completed` is the line of 202-203 (printed right
after a successful `ReadFile`), `dispatched` the line of 221-222 (printed right after
a successful `WriteFile`), `writeFailed` the line of 219. -/
inductive Event where
  | completed (idx : Nat) (worker_type : Int) (finishedDuration : Int)
  | dispatched (idx : Nat) (job : Job)
  | writeFailed (idx : Nat)
deriving DecidableEq, Repr

/-- The state of the dispatcher: the `workers` vector, the `jobQueue` vector and the
lines printed so far. -/
structure MState where
  workers : List WorkerInfo
  jobQueue : List Job
  out : List Event
deriving DecidableEq, Repr

/-! ## Bytes and system calls -/

/-- The four bytes of a 32-bit `int` in memory (little endian, two's complement). -/
def encodeInt (d : Int) : List Nat :=
  let u := (d % 4294967296).toNat
  [u % 256, u / 256 % 256, u / 65536 % 256, u / 16777216 % 256]

/-- The `int` held by four bytes of memory. -/
def decodeInt (bs : List Nat) : Int :=
  let u := bs.getD 0 0 + 256 * bs.getD 1 0 + 65536 * bs.getD 2 0 + 16777216 * bs.getD 3 0
  if u < 2147483648 then (u : Int) else (u : Int) - 4294967296

/-- The outcome the environment gives to one `ReadFile` or `WriteFile` call: the
`BOOL` it returns and the number of bytes it is able to transfer. -/
structure Xfer where
  success : Bool
  count : Nat
deriving DecidableEq, Repr

/-- A call that succeeds and transfers a whole record. -/
def Xfer.good : Xfer := { success := true, count := 4 }

/-- The result of a `WriteFile` call. -/
structure WriteRes where
  pipe : List Nat
  success : Bool
  bytesWritten : Nat
deriving DecidableEq, Repr

/-- The result of a `ReadFile` call. -/
structure ReadRes where
  pipe : List Nat
  success : Bool
  data : List Nat
deriving DecidableEq, Repr

/-- Number of bytes a `ReadFile` call stored. -/
def ReadRes.bytesRead (r : ReadRes) : Nat := r.data.length

/-- The call `WriteFile(h, buf, |buf|, &bytesWritten, NULL)` on a pipe. -/
def WriteFile (pipe buf : List Nat) (o : Xfer) : WriteRes :=
  let n := min o.count buf.length
  { pipe := pipe ++ buf.take n, success := o.success, bytesWritten := n }

/-- The call `ReadFile(h, &x, n, &bytesRead, NULL)` on a pipe. -/
def ReadFile (pipe : List Nat) (n : Nat) (o : Xfer) : ReadRes :=
  let k := min (min n o.count) pipe.length
  { pipe := pipe.drop k, success := o.success, data := pipe.take k }

/-- The environment of one dispatcher loop iteration: for the worker at each position,
whether `PeekNamedPipe` succeeds, and the outcomes of `ReadFile` and `WriteFile`. -/
structure Env where
  peek : Nat → Bool
  read : Nat → Xfer
  write : Nat → Xfer

/-- The environment in which no call fails. -/
def Env.good : Env := { peek := fun _ => true, read := fun _ => Xfer.good, write := fun _ => Xfer.good }

/-- Every `WriteFile` of the iteration succeeds with a whole record. -/
def Env.sendsOk (e : Env) : Prop := ∀ i, (e.write i).success = true ∧ 4 ≤ (e.write i).count

/-- No call of the iteration fails. -/
def Env.allOk (e : Env) : Prop :=
  ∀ i, e.peek i = true ∧ ((e.read i).success = true ∧ 4 ≤ (e.read i).count) ∧
    ((e.write i).success = true ∧ 4 ≤ (e.write i).count)

/-! ## The dispatcher loop (lines 192-248) -/

/-- The body of the poll loop for one worker (lines 195-207). -/
def pollWorker (e : Env) (idx : Nat) (w : WorkerInfo) : WorkerInfo × List Event :=
  if w.busy then
    if e.peek idx && decide (4 ≤ w.hRead.length) then
      let r := ReadFile w.hRead 4 (e.read idx)
      if r.success && r.bytesRead == 4 then
        ({ w with hRead := r.pipe, busy := false },
          [Event.completed idx w.worker_type (decodeInt r.data)])
      else ({ w with hRead := r.pipe }, [])
    else (w, [])
  else (w, [])

/-- The poll loop over the workers from position `idx` on (lines 194-208). -/
def pollLoop (e : Env) : Nat → List WorkerInfo → List WorkerInfo × List Event
  | _, [] => ([], [])
  | idx, w :: ws =>
    let r := pollWorker e idx w
    let rs := pollLoop e (idx + 1) ws
    (r.1 :: rs.1, r.2 ++ rs.2)

/-- The poll phase of one iteration (lines 193-208). -/
def pollPhase (e : Env) (s : MState) : MState :=
  let r := pollLoop e 0 s.workers
  { s with workers := r.1, out := s.out ++ r.2 }

/-- Result of the scan for an idle worker of the job's type. -/
structure ScanRes where
  workers : List WorkerInfo
  events : List Event
  dispatched : Bool
deriving DecidableEq, Repr

/-- The scan of lines 215-229 over the workers from position `idx` on. -/
def dispatchScan (e : Env) (job : Job) : Nat → List WorkerInfo → ScanRes
  | _, [] => { workers := [], events := [], dispatched := false }
  | idx, w :: ws =>
    if w.worker_type == job.type && !w.busy then
      let r := WriteFile w.hWrite (encodeInt job.duration) (e.write idx)
      if !r.success || r.bytesWritten != 4 then
        let rest := dispatchScan e job (idx + 1) ws
        { workers := { w with hWrite := r.pipe } :: rest.workers,
          events := Event.writeFailed idx :: rest.events,
          dispatched := rest.dispatched }
      else
        { workers := { w with hWrite := r.pipe, busy := true } :: ws,
          events := [Event.dispatched idx job],
          dispatched := true }
    else
      let rest := dispatchScan e job (idx + 1) ws
      { rest with workers := w :: rest.workers }

/-- The dispatch phase of one iteration (the true branch of line 211, lines 211-233).
`jobQueue.erase(jobQueue.begin())` happens in the iteration of the scan that sets
`dispatched`. -/
def dispatchPhase (e : Env) (s : MState) : MState :=
  match s.jobQueue with
  | [] => s
  | job :: rest =>
    let r := dispatchScan e job 0 s.workers
    { workers := r.workers,
      jobQueue := if r.dispatched then rest else job :: rest,
      out := s.out ++ r.events }

/-- The test of lines 236-242. -/
def allIdle : List WorkerInfo → Bool
  | [] => true
  | w :: ws => if w.busy then false else allIdle ws

/-- One iteration of the loop of line 192 (whose condition is always true): the state
after it, and whether the `break` of line 244 was taken. -/
def iteration (e : Env) (s : MState) : MState × Bool :=
  let s1 := pollPhase e s
  if !s1.jobQueue.isEmpty then (dispatchPhase e s1, false)
  else if allIdle s1.workers then (s1, true)
  else (s1, false)

/-- What can happen between two steps of the dispatcher loop. -/
inductive Action where
  /-- The dispatcher runs one iteration of the loop of line 192. -/
  | iter (e : Env)
  /-- The process at the other end of the pipes of the worker at position `idx` (or
  anything else holding those pipes) changes what is buffered in them. -/
  | pipes (idx : Nat) (hWrite hRead : List Nat)

/-- Replace what is buffered in the two pipes of the worker at position `idx`. -/
def setPipes : Nat → List Nat → List Nat → List WorkerInfo → List WorkerInfo
  | _, _, _, [] => []
  | 0, hw, hr, w :: ws => { w with hWrite := hw, hRead := hr } :: ws
  | idx + 1, hw, hr, w :: ws => w :: setPipes idx hw hr ws

/-- The loop of line 192 run against a schedule: the state reached when the schedule
is used up or when the `break` of line 244 is taken, and whether it was taken. -/
def mainLoop : List Action → MState → MState × Bool
  | [], s => (s, false)
  | Action.iter e :: as, s =>
    let r := iteration e s
    if r.2 then (r.1, true) else mainLoop as r.1
  | Action.pipes idx hw hr :: as, s =>
    mainLoop as { s with workers := setPipes idx hw hr s.workers }

/-- The termination writes of lines 251-254 over the workers from position `idx` on;
the result of `WriteFile` is not looked at. -/
def shutdownLoop (e : Env) : Nat → List WorkerInfo → List WorkerInfo
  | _, [] => []
  | idx, w :: ws =>
    { w with hWrite := (WriteFile w.hWrite (encodeInt 0) (e.write idx)).pipe } ::
      shutdownLoop e (idx + 1) ws

/-- The dispatcher from line 190 on, started in state `s`: `none` while the loop is
still running at the end of the schedule, otherwise the state in which the loop was
left, the state after the termination writes (made in environment `e`) and the value
returned by `main`. -/
def dispatcher (as : List Action) (e : Env) (s : MState) : Option (MState × MState × Int) :=
  let r := mainLoop as s
  if r.2 then some (r.1, { r.1 with workers := shutdownLoop e 0 r.1.workers }, 0) else none

/-! ## Reading the dispatcher's output -/

/-- Position of the worker an output line is about. -/
def Event.idx : Event → Nat
  | Event.completed i _ _ => i
  | Event.dispatched i _ => i
  | Event.writeFailed i => i

/-- The jobs sent successfully, in the order they were sent. -/
def sentJobs : List Event → List Job
  | [] => []
  | Event.dispatched _ job :: l => job :: sentJobs l
  | _ :: l => sentJobs l

/-- Number of requests sent successfully to the worker at position `i`. -/
def sentCount (i : Nat) : List Event → Nat
  | [] => 0
  | Event.dispatched j _ :: l => (if j = i then 1 else 0) + sentCount i l
  | _ :: l => sentCount i l

/-- Number of responses consumed from the worker at position `i`. -/
def consumedCount (i : Nat) : List Event → Nat
  | [] => 0
  | Event.completed j _ _ :: l => (if j = i then 1 else 0) + consumedCount i l
  | _ :: l => consumedCount i l

/-- The operations made on the channel of the worker at position `i`, in order:
`true` for a request sent, `false` for a response consumed. -/
def chanOps (i : Nat) : List Event → List Bool
  | [] => []
  | Event.dispatched j _ :: l => if j = i then true :: chanOps i l else chanOps i l
  | Event.completed j _ _ :: l => if j = i then false :: chanOps i l else chanOps i l
  | Event.writeFailed _ :: l => chanOps i l

/-- The operations alternate, the first being a request iff `expectSend`. -/
def alternating : Bool → List Bool → Bool
  | _, [] => true
  | expectSend, b :: bs => b == expectSend && alternating (!expectSend) bs

/-- The duration a line says was dispatched to the worker at position `i`, if it says
so. -/
def dispatchedTo (i : Nat) : Event → Option Int
  | Event.dispatched j job => if j = i then some job.duration else none
  | Event.completed _ _ _ => none
  | Event.writeFailed _ => none

/-- Duration of the job most recently dispatched to the worker at position `i`. -/
def lastDispatched (i : Nat) : List Event → Option Int
  | [] => none
  | ev :: l =>
    match lastDispatched i l with
    | some d => some d
    | none => dispatchedTo i ev

/-! ## The worker (lines 29-57) -/

/-- Where a worker process stands in `WorkerMain`: blocked in the `ReadFile` of line 38,
holding a non-zero duration between lines 44 and 51, or returned. -/
inductive Proc where
  | reading
  | working (duration : Int)
  | exited (code : Int)
deriving DecidableEq, Repr

/-- Lines 39-45: what follows a `ReadFile` that returned `success` and stored `data`. -/
def afterRead (success : Bool) (data : List Nat) : Proc :=
  if !success || data.length != 4 then Proc.exited 0
  else if decodeInt data == 0 then Proc.exited 0
  else Proc.working (decodeInt data)

/-- Lines 52-54: what follows a `WriteFile` that returned `success` and wrote
`bytesWritten` bytes. -/
def afterWrite (success : Bool) (bytesWritten : Nat) : Proc :=
  if !success || bytesWritten != 4 then Proc.exited 0 else Proc.reading

/-- The argument of the `Sleep` call of line 48, a 32-bit unsigned number of
milliseconds. -/
def sleepArg (duration : Int) : Nat := (duration * 1000 % 4294967296).toNat

/-- What a worker does, as seen from outside. -/
inductive WEvent where
  /-- The `ReadFile` of line 38 returned `success` and stored `data`. -/
  | read (success : Bool) (data : List Nat)
  /-- The `Sleep` of line 48 was called. -/
  | sleep (ms : Nat)
  /-- The `WriteFile` of line 51 was called with the bytes of `duration`; it returned `success` and
  wrote `bytesWritten` bytes. -/
  | write (duration : Int) (success : Bool) (bytesWritten : Nat)
deriving DecidableEq, Repr

/-- The environment of one iteration of the worker loop: what the `ReadFile` of line 38
returns and stores, and the outcome of the `WriteFile` of line 51. -/
structure WEnv where
  success : Bool
  data : List Nat
  write : Xfer
deriving DecidableEq, Repr

/-- The loop of lines 36-55 against the list of what its successive iterations meet.
When the list is used up the next `ReadFile` fails, as it does on a pipe whose
write end has been closed. -/
def WorkerLoop : List WEnv → List WEvent
  | [] => [WEvent.read false []]
  | x :: xs =>
    match afterRead x.success x.data with
    | Proc.working duration =>
      let r := WriteFile [] (encodeInt duration) x.write
      WEvent.read x.success x.data :: WEvent.sleep (sleepArg duration) ::
        WEvent.write duration r.success r.bytesWritten ::
        (match afterWrite r.success r.bytesWritten with
          | Proc.reading => WorkerLoop xs
          | _ => [])
    | _ => [WEvent.read x.success x.data]

/-- The function `WorkerMain`: what the process does and the value it returns. -/
def WorkerMain (_workerType : Int) (xs : List WEnv) : List WEvent × Int :=
  (WorkerLoop xs, 0)

/-- The values the worker received as whole records. -/
def requestsRead : List WEvent → List Int
  | [] => []
  | WEvent.read success data :: l =>
    if success && data.length == 4 then decodeInt data :: requestsRead l else requestsRead l
  | _ :: l => requestsRead l

/-- The values the worker passed to `WriteFile`. -/
def responsesWritten : List WEvent → List Int
  | [] => []
  | WEvent.write duration _ _ :: l => duration :: responsesWritten l
  | _ :: l => responsesWritten l

/-- The number of `ReadFile` calls made. -/
def readCalls : List WEvent → Nat
  | [] => 0
  | WEvent.read _ _ :: l => 1 + readCalls l
  | _ :: l => readCalls l

/-! ## Dispatcher and workers together -/

/-- One step inside `WorkerMain` on the two pipes of the process: the blocking call it
stands at returns.  `stdin` is the dispatcher's `hWrite` pipe and `stdout` its `hRead`
pipe.  A `ReadFile` on an empty pipe does not return, so the worker stays where it is.
What the process does before `WorkerMain` is entered and after it has returned is in
`workerStep`. -/
def loopStep (rd wr : Xfer) (p : Proc) (stdin stdout : List Nat) :
    Proc × List Nat × List Nat :=
  match p with
  | Proc.reading =>
    if stdin.isEmpty then (p, stdin, stdout)
    else
      let r := ReadFile stdin 4 rd
      (afterRead r.success r.data, r.pipe, stdout)
  | Proc.working duration =>
    let r := WriteFile stdout (encodeInt duration) wr
    (afterWrite r.success r.bytesWritten, stdin, r.pipe)
  | Proc.exited code => (Proc.exited code, stdin, stdout)

/-- The decimal digits of `n` as characters, most significant first; `fuel` bounds the
number of digits. -/
def decimalDigits : Nat → Nat → List Nat
  | 0, _ => []
  | fuel + 1, n =>
    if n < 10 then [48 + n] else decimalDigits fuel (n / 10) ++ [48 + n % 10]

/-- The characters `operator<<` prints for an `int`. -/
def decimal (t : Int) : List Nat :=
  if t < 0 then 45 :: decimalDigits (t.natAbs + 1) t.natAbs
  else decimalDigits (t.natAbs + 1) t.natAbs

/-- The characters line 74 sends to `std::cout` in a worker process.  The standard
output of that process is the pipe behind the dispatcher's `hRead` (lines 132 and 172).
The newline is taken as the one character written in the source. -/
def startupText (workerType : Int) : List Nat :=
  ("Worker process started, handling job type ".toList.map Char.toNat) ++
    decimal workerType ++ [46, 10]

/-- Where a worker process stands in `main` (lines 70-76): before line 74, inside the
call of `WorkerMain` of line 75 (at `exited c` that call has returned `c` and `main` is
about to return it), or ended. -/
inductive Stage where
  | launched
  | inWorker (p : Proc)
  | terminated (code : Int)
deriving DecidableEq, Repr

/-- A worker process: where it stands, and the characters sent to `std::cout` that its
stream buffer still holds. -/
structure Process where
  stage : Stage
  cout : List Nat
deriving DecidableEq, Repr

/-- One step of a worker process of type `workerType` on its two pipes.  `buffered`
says how the runtime treats `std::cout` on a pipe: when false, what line 74 prints is
written to the pipe at once; when true, it stays in the stream buffer and is written
when the process ends.  Inside `WorkerMain` the step is `loopStep`, whose `WriteFile`
calls go to the pipe directly. -/
def workerStep (buffered : Bool) (rd wr : Xfer) (workerType : Int) (pr : Process)
    (stdin stdout : List Nat) : Process × List Nat × List Nat :=
  match pr.stage with
  | Stage.launched =>
    if buffered then
      ({ stage := Stage.inWorker Proc.reading, cout := pr.cout ++ startupText workerType },
        stdin, stdout)
    else
      ({ stage := Stage.inWorker Proc.reading, cout := pr.cout },
        stdin, stdout ++ startupText workerType)
  | Stage.inWorker (Proc.exited code) =>
    ({ stage := Stage.terminated code, cout := [] }, stdin, stdout ++ pr.cout)
  | Stage.inWorker p =>
    let r := loopStep rd wr p stdin stdout
    ({ stage := Stage.inWorker r.1, cout := pr.cout }, r.2.1, r.2.2)
  | Stage.terminated code => ({ stage := Stage.terminated code, cout := pr.cout }, stdin, stdout)

/-- The dispatcher together with the worker processes it spawned, one per entry of
`workers`, and the way the runtime treats `std::cout` on a pipe. -/
structure Sys where
  buffered : Bool
  mgr : MState
  procs : List Process
deriving DecidableEq, Repr

/-- A step of the whole system. -/
inductive SysAction where
  /-- The dispatcher runs one iteration of its loop. -/
  | iter (e : Env)
  /-- The worker process at position `idx` takes a step. -/
  | worker (idx : Nat) (rd wr : Xfer)

/-- The worker process at position `idx` takes a step. -/
def workerAct (buffered : Bool) (rd wr : Xfer) :
    Nat → List WorkerInfo → List Process → List WorkerInfo × List Process
  | 0, w :: ws, p :: ps =>
    let r := workerStep buffered rd wr w.worker_type p w.hWrite w.hRead
    ({ w with hWrite := r.2.1, hRead := r.2.2 } :: ws, r.1 :: ps)
  | idx + 1, w :: ws, p :: ps =>
    let r := workerAct buffered rd wr idx ws ps
    (w :: r.1, p :: r.2)
  | _, ws, ps => (ws, ps)

/-- The dispatcher loop and the workers run against a schedule, up to the end of the
schedule or the `break` of line 244. -/
def sysLoop : List SysAction → Sys → Sys × Bool
  | [], s => (s, false)
  | SysAction.iter e :: as, s =>
    let r := iteration e s.mgr
    if r.2 then ({ s with mgr := r.1 }, true) else sysLoop as { s with mgr := r.1 }
  | SysAction.worker idx rd wr :: as, s =>
    let r := workerAct s.buffered rd wr idx s.mgr.workers s.procs
    sysLoop as { s with mgr := { s.mgr with workers := r.1 }, procs := r.2 }

/-- The pool right after startup (lines 97-177): one idle worker per listed type, with
empty pipes. -/
def spawnWorkers (types : List Int) : List WorkerInfo :=
  types.map fun t => { worker_type := t, busy := false, hWrite := [], hRead := [] }

/-- A value of the C++ type `int`. -/
def isInt32 (d : Int) : Prop := -2147483648 ≤ d ∧ d < 2147483648

instance (d : Int) : Decidable (isInt32 d) := by unfold isInt32; infer_instance

/-- The system when the dispatcher enters its loop: the pipes are empty and every
worker process has been created and has not yet run line 74. -/
def Sys.start (buffered : Bool) (types : List Int) (queue : List Job) : Sys :=
  { buffered := buffered,
    mgr := { workers := spawnWorkers types, jobQueue := queue, out := [] },
    procs := types.map fun _ => { stage := Stage.launched, cout := [] } }

/-! ## Predicates used in the statements and proofs -/

/-- A worker the scan of lines 215-229 would write to. -/
def matchesJob (job : Job) (w : WorkerInfo) : Prop :=
  w.worker_type = job.type ∧ w.busy = false

instance (job : Job) (w : WorkerInfo) : Decidable (matchesJob job w) := by
  unfold matchesJob; infer_instance

/-- An environment in which every call fails. -/
def Env.bad : Env :=
  { peek := fun _ => false, read := fun _ => ⟨false, 0⟩, write := fun _ => ⟨false, 0⟩ }

/-- No worker of the pool has the type of `j`. -/
def noWorkerFor (j : Job) (ws : List WorkerInfo) : Prop :=
  ∀ t ∈ ws.map (fun w => w.worker_type), t ≠ j.type

/-- The queue holds `j` with exactly `behind` after it, and no worker has its type. -/
def Stalled (j : Job) (behind : List Job) (s : MState) : Prop :=
  (∃ pre, s.jobQueue = pre ++ j :: behind) ∧ noWorkerFor j s.workers

/-- The type and busy flag of a worker. -/
def flags (w : WorkerInfo) : Int × Bool := (w.worker_type, w.busy)

/-- The operations on a channel alternate from a request on, and the worker is busy
exactly when their number is odd. -/
def ChanInv (ops : List Bool) (busy : Bool) : Prop :=
  alternating true ops = true ∧ busy = decide (ops.length % 2 = 1)

/-- How one phase may change the worker at position `i` while printing `evs`: no
operation on its channel and the same busy flag, or one request sent to an idle worker
that becomes busy, or one response consumed from a busy worker that becomes idle. -/
def StepRel (i : Nat) (evs : List Event) (w w2 : WorkerInfo) : Prop :=
  (w2.busy = w.busy ∧ chanOps i evs = []) ∨
  (w.busy = false ∧ w2.busy = true ∧ chanOps i evs = [true]) ∨
  (w.busy = true ∧ w2.busy = false ∧ chanOps i evs = [false])

/-- Every worker of the pool satisfies `ChanInv` for the operations printed about its
position. -/
def PoolInv (out : List Event) (ws : List WorkerInfo) : Prop :=
  ∀ k w, ws[k]? = some w → ChanInv (chanOps k out) w.busy

/-- The record read is a whole one and holds a non-zero value. -/
def isRequest (success : Bool) (data : List Nat) : Prop :=
  success = true ∧ data.length = 4 ∧ decodeInt data ≠ 0

instance (success : Bool) (data : List Nat) : Decidable (isRequest success data) := by
  unfold isRequest; infer_instance

/-- Every completion line carries the duration of the job most recently dispatched to
the same worker. -/
def LogOk (out : List Event) : Prop :=
  ∀ pre i t v post, out = pre ++ Event.completed i t v :: post →
    lastDispatched i pre = some v

/-- The process is before line 74 or blocked in the `ReadFile` of line 38. -/
def waiting (pr : Process) : Prop :=
  pr.stage = Stage.launched ∨ pr.stage = Stage.inWorker Proc.reading

/-- How the dispatcher's record `w` of a worker, the worker process `pr` and the
duration `last` most recently dispatched to it stand together as long as nothing but
echoed durations has reached the response pipe. -/
def WOk (last : Option Int) (w : WorkerInfo) (pr : Process) : Prop :=
  (w.busy = false ∧ w.hWrite = [] ∧ w.hRead = [] ∧ waiting pr) ∨
  (w.busy = true ∧ ∃ d, last = some d ∧ isInt32 d ∧ d ≠ 0 ∧
    ((w.hWrite = encodeInt d ∧ w.hRead = [] ∧ waiting pr) ∨
     (w.hWrite = [] ∧ w.hRead = [] ∧ pr.stage = Stage.inWorker (Proc.working d)) ∨
     (w.hWrite = [] ∧ w.hRead = encodeInt d ∧ pr.stage = Stage.inWorker Proc.reading)))

/-- The invariant of the dispatcher and the worker processes while what line 74 printed
stays in the stream buffers. -/
def SysInv (m : MState) (ps : List Process) : Prop :=
  (∀ j ∈ m.jobQueue, isInt32 j.duration ∧ j.duration ≠ 0) ∧
  LogOk m.out ∧
  ∀ k w, m.workers[k]? = some w →
    ∃ pr, ps[k]? = some pr ∧ WOk (lastDispatched k m.out) w pr

/-- No call of the step fails or is cut short. -/
def SysAction.ok : SysAction → Prop
  | SysAction.iter e => e.allOk
  | SysAction.worker _ rd wr =>
    (rd.success = true ∧ 4 ≤ rd.count) ∧ (wr.success = true ∧ 4 ≤ wr.count)

/-- A pool whose third worker is the first idle one of type 2, and a queue whose front
job has type 2. -/
def dispatchExample : MState :=
  { workers := [⟨1, false, [], []⟩, ⟨2, true, [], []⟩, ⟨2, false, [], []⟩, ⟨2, false, [], []⟩],
    jobQueue := [⟨2, 5⟩, ⟨1, 2⟩], out := [] }

/-- A pool of an idle worker, a busy worker with a response waiting, and a busy worker
with only 2 bytes waiting. -/
def pollExample : MState :=
  { workers := [⟨1, false, [], []⟩, ⟨2, true, [], encodeInt 5⟩, ⟨3, true, [], [1, 0]⟩],
    jobQueue := [⟨4, 1⟩], out := [] }

/-- A schedule of three dispatcher iterations, the worker at position 0 putting the
bytes of 3 in its pipe to the dispatcher before the third. -/
def exampleActions : List Action :=
  [Action.iter Env.good, Action.iter Env.good, Action.pipes 0 [] (encodeInt 3),
   Action.iter Env.good]

/-- Two idle workers of type 1 and three jobs of that type. -/
def examplePool : MState :=
  { workers := [⟨1, false, [], []⟩, ⟨1, false, [], []⟩],
    jobQueue := [⟨1, 3⟩, ⟨1, 2⟩, ⟨1, 5⟩], out := [] }

theorem encodeInt_length (d : Int) : (encodeInt d).length = 4 := by
  simp [encodeInt]

theorem WriteFile_whole (pipe : List Nat) (d : Int) (o : Xfer) (h : 4 ≤ o.count) :
    WriteFile pipe (encodeInt d) o =
      { pipe := pipe ++ encodeInt d, success := o.success, bytesWritten := 4 } := by
  have hl := encodeInt_length d
  simp only [WriteFile, hl, Nat.min_eq_right h]
  rw [← hl, List.take_length]

theorem dispatchScan_none (e : Env) (job : Job) (ws : List WorkerInfo) :
    ∀ idx, (∀ x ∈ ws, ¬ matchesJob job x) →
      dispatchScan e job idx ws = { workers := ws, events := [], dispatched := false } := by
  induction ws with
  | nil => intro idx _; rfl
  | cons w ws ih =>
    intro idx h
    have hw : ¬ matchesJob job w := h w (List.mem_cons_self _ _)
    have hc : (w.worker_type == job.type && !w.busy) = false := by
      simp only [matchesJob] at hw
      cases hb : w.busy <;> simp_all
    simp only [dispatchScan, hc]
    rw [ih (idx + 1) (fun x hx => h x (List.mem_cons_of_mem _ hx))]
    simp

theorem dispatchScan_found (e : Env) (job : Job) (hok : e.sendsOk)
    (pre : List WorkerInfo) (w : WorkerInfo) (post : List WorkerInfo)
    (hw : matchesJob job w) :
    ∀ idx, (∀ x ∈ pre, ¬ matchesJob job x) →
      dispatchScan e job idx (pre ++ w :: post) =
        { workers := pre ++ { w with hWrite := w.hWrite ++ encodeInt job.duration,
                                     busy := true } :: post,
          events := [Event.dispatched (idx + pre.length) job],
          dispatched := true } := by
  induction pre with
  | nil =>
    intro idx _
    have hc : (w.worker_type == job.type && !w.busy) = true := by
      simp [hw.1, hw.2]
    simp only [List.nil_append, dispatchScan, hc, if_true]
    rw [WriteFile_whole _ _ _ (hok idx).2]
    simp [(hok idx).1]
  | cons x pre ih =>
    intro idx h
    have hx : ¬ matchesJob job x := h x (List.mem_cons_self _ _)
    have hc : (x.worker_type == job.type && !x.busy) = false := by
      simp only [matchesJob] at hx
      cases hb : x.busy <;> simp_all
    rw [List.cons_append, dispatchScan]
    simp only [hc]
    rw [ih (idx + 1) (fun y hy => h y (List.mem_cons_of_mem _ hy))]
    simp [Nat.add_comm, Nat.add_left_comm]

theorem exists_first_match (job : Job) (ws : List WorkerInfo)
    (h : ∃ x ∈ ws, matchesJob job x) :
    ∃ pre w post, ws = pre ++ w :: post ∧ matchesJob job w ∧ ∀ x ∈ pre, ¬ matchesJob job x := by
  induction ws with
  | nil => simp at h
  | cons a ws ih =>
    by_cases ha : matchesJob job a
    · exact ⟨[], a, ws, rfl, ha, by simp⟩
    · obtain ⟨x, hx, hm⟩ := h
      rcases List.mem_cons.1 hx with rfl | hx
      · exact absurd hm ha
      · obtain ⟨pre, w, post, rfl, hw, hpre⟩ := ih ⟨x, hx, hm⟩
        refine ⟨a :: pre, w, post, rfl, hw, ?_⟩
        intro y hy
        rcases List.mem_cons.1 hy with rfl | hy
        · exact ha
        · exact hpre y hy

/-! ## Claims -/

/-- C1: the dispatch phase when every send succeeds, on a queue with front `job`.  If
some worker is idle and of the job's type, the pool splits as `pre ++ w :: post` with
`w` the first such worker; the phase appends the four bytes of the job's duration to
the pipe of `w` and of no other worker, marks `w` busy, removes the front job, prints
one dispatch line, and leaves every other worker and the rest of the queue as they
were.  If no worker is idle and of the job's type, the whole state is unchanged. -/
theorem dispatchPhase_spec (e : Env) (s : MState) (job : Job) (rest : List Job)
    (hok : e.sendsOk) (hq : s.jobQueue = job :: rest) :
    ((∃ x ∈ s.workers, x.worker_type = job.type ∧ x.busy = false) →
      ∃ pre w post, s.workers = pre ++ w :: post ∧
        (w.worker_type = job.type ∧ w.busy = false) ∧
        (∀ x ∈ pre, ¬ (x.worker_type = job.type ∧ x.busy = false)) ∧
        dispatchPhase e s =
          { workers := pre ++ { worker_type := w.worker_type, busy := true,
                                hWrite := w.hWrite ++ encodeInt job.duration,
                                hRead := w.hRead } :: post,
            jobQueue := rest,
            out := s.out ++ [Event.dispatched pre.length job] }) ∧
    ((∀ x ∈ s.workers, ¬ (x.worker_type = job.type ∧ x.busy = false)) →
      dispatchPhase e s = s) := by
  constructor
  · intro h
    obtain ⟨pre, w, post, hws, hw, hpre⟩ := exists_first_match job s.workers h
    refine ⟨pre, w, post, hws, hw, hpre, ?_⟩
    simp only [dispatchPhase, hq, hws]
    rw [dispatchScan_found e job hok pre w post hw 0 hpre]
    simp
  · intro h
    simp only [dispatchPhase, hq]
    rw [dispatchScan_none e job s.workers 0 h]
    cases s
    simp_all

/-- C1 at a pool of four workers whose third is the first idle one of type 2: such a
worker exists, the phase sends it the job, and the statement of C1 holds there. -/
theorem dispatchPhase_spec_witness :
    (∃ x ∈ dispatchExample.workers, x.worker_type = 2 ∧ x.busy = false) ∧
    dispatchPhase Env.good dispatchExample =
      ⟨[⟨1, false, [], []⟩, ⟨2, true, [], []⟩, ⟨2, true, encodeInt 5, []⟩,
          ⟨2, false, [], []⟩],
        [⟨1, 2⟩], [Event.dispatched 2 ⟨2, 5⟩]⟩ ∧
    (((∃ x ∈ dispatchExample.workers, x.worker_type = (⟨2, 5⟩ : Job).type ∧ x.busy = false) →
      ∃ pre w post, dispatchExample.workers = pre ++ w :: post ∧
        (w.worker_type = (⟨2, 5⟩ : Job).type ∧ w.busy = false) ∧
        (∀ x ∈ pre, ¬ (x.worker_type = (⟨2, 5⟩ : Job).type ∧ x.busy = false)) ∧
        dispatchPhase Env.good dispatchExample =
          { workers := pre ++ { worker_type := w.worker_type, busy := true,
                                hWrite := w.hWrite ++ encodeInt (⟨2, 5⟩ : Job).duration,
                                hRead := w.hRead } :: post,
            jobQueue := [⟨1, 2⟩],
            out := dispatchExample.out ++ [Event.dispatched pre.length ⟨2, 5⟩] }) ∧
    ((∀ x ∈ dispatchExample.workers,
        ¬ (x.worker_type = (⟨2, 5⟩ : Job).type ∧ x.busy = false)) →
      dispatchPhase Env.good dispatchExample = dispatchExample)) :=
  ⟨by decide, by decide,
   dispatchPhase_spec Env.good dispatchExample ⟨2, 5⟩ [⟨1, 2⟩]
    (fun _ => ⟨rfl, Nat.le_refl 4⟩) rfl⟩

/-! ## Poll phase -/

theorem pollWorker_idx (e : Env) (idx : Nat) (w : WorkerInfo) :
    ∀ ev ∈ (pollWorker e idx w).2, ev.idx = idx := by
  intro ev hev
  unfold pollWorker at hev
  dsimp only at hev
  split_ifs at hev <;> simp at hev
  subst hev; rfl

theorem pollWorker_type (e : Env) (idx : Nat) (w : WorkerInfo) :
    (pollWorker e idx w).1.worker_type = w.worker_type := by
  unfold pollWorker
  dsimp only
  split_ifs <;> rfl

theorem pollWorker_hWrite (e : Env) (idx : Nat) (w : WorkerInfo) :
    (pollWorker e idx w).1.hWrite = w.hWrite := by
  unfold pollWorker
  dsimp only
  split_ifs <;> rfl

theorem pollLoop_idx (e : Env) (ws : List WorkerInfo) :
    ∀ idx, ∀ ev ∈ (pollLoop e idx ws).2, idx ≤ ev.idx := by
  induction ws with
  | nil => intro idx ev hev; simp [pollLoop] at hev
  | cons w ws ih =>
    intro idx ev hev
    simp only [pollLoop, List.mem_append] at hev
    rcases hev with h | h
    · exact (pollWorker_idx e idx w ev h).ge
    · exact Nat.le_of_succ_le (ih (idx + 1) ev h)

theorem filter_idx_all (l : List Event) (k : Nat) (h : ∀ ev ∈ l, ev.idx = k) :
    l.filter (fun ev => ev.idx == k) = l := by
  rw [List.filter_eq_self]
  intro ev hev
  simp [h ev hev]

theorem filter_idx_none (l : List Event) (k : Nat) (h : ∀ ev ∈ l, ev.idx ≠ k) :
    l.filter (fun ev => ev.idx == k) = [] := by
  rw [List.filter_eq_nil_iff]
  intro ev hev
  simp [h ev hev]

theorem pollLoop_length (e : Env) (ws : List WorkerInfo) :
    ∀ idx, (pollLoop e idx ws).1.length = ws.length := by
  induction ws with
  | nil => intro idx; rfl
  | cons w ws ih => intro idx; simp [pollLoop, ih]

/-- The poll loop treats the worker at each position as `pollWorker` does, and the
lines it prints about that position are those of `pollWorker`. -/
theorem pollLoop_get (e : Env) (ws : List WorkerInfo) :
    ∀ idx k w, ws[k]? = some w →
      (pollLoop e idx ws).1[k]? = some (pollWorker e (idx + k) w).1 ∧
      (pollLoop e idx ws).2.filter (fun ev => ev.idx == idx + k) =
        (pollWorker e (idx + k) w).2 := by
  induction ws with
  | nil => intro idx k w h; simp at h
  | cons a ws ih =>
    intro idx k w h
    cases k with
    | zero =>
      simp only [List.getElem?_cons_zero, Option.some.injEq] at h
      subst h
      refine ⟨by simp [pollLoop], ?_⟩
      simp only [pollLoop, List.filter_append, Nat.add_zero]
      rw [filter_idx_all _ _ (pollWorker_idx e idx a),
        filter_idx_none _ _ (fun ev hev => by
          have := pollLoop_idx e ws (idx + 1) ev hev
          omega)]
      simp
    | succ k =>
      simp only [List.getElem?_cons_succ] at h
      obtain ⟨h1, h2⟩ := ih (idx + 1) k w h
      have hk : idx + (k + 1) = idx + 1 + k := by omega
      refine ⟨by simpa [pollLoop, hk] using h1, ?_⟩
      simp only [pollLoop, List.filter_append]
      rw [filter_idx_none _ _ (fun ev hev => by
          have := pollWorker_idx e idx a ev hev
          omega), hk, h2]
      simp

/-- C7: the poll phase leaves the queue and the number of workers as they are and only
adds lines to the output.  For the worker at each position `k`: its type and its
dispatcher-to-worker pipe are unchanged; if it is busy, `PeekNamedPipe` succeeds, at
least 4 bytes are buffered and `ReadFile` succeeds with a whole record, it becomes
idle, exactly the first 4 bytes leave its pipe, and the one line printed about it is a
completion carrying the value held by those 4 bytes; if it is busy with fewer than 4
bytes buffered, or is idle, it is unchanged and no line is printed about it. -/
theorem pollPhase_spec (e : Env) (s : MState) :
    (pollPhase e s).jobQueue = s.jobQueue ∧
    (pollPhase e s).workers.length = s.workers.length ∧
    ∃ evs, (pollPhase e s).out = s.out ++ evs ∧
      ∀ k w, s.workers[k]? = some w →
        ∃ w2, (pollPhase e s).workers[k]? = some w2 ∧
          w2.worker_type = w.worker_type ∧ w2.hWrite = w.hWrite ∧
          (w.busy = true → e.peek k = true → 4 ≤ w.hRead.length →
            (e.read k).success = true → 4 ≤ (e.read k).count →
              w2.busy = false ∧ w2.hRead = w.hRead.drop 4 ∧
              evs.filter (fun ev => ev.idx == k) =
                [Event.completed k w.worker_type (decodeInt (w.hRead.take 4))]) ∧
          (w.busy = true → w.hRead.length < 4 →
            w2 = w ∧ evs.filter (fun ev => ev.idx == k) = []) ∧
          (w.busy = false → w2 = w ∧ evs.filter (fun ev => ev.idx == k) = []) := by
  refine ⟨rfl, pollLoop_length e s.workers 0, (pollLoop e 0 s.workers).2, rfl, ?_⟩
  intro k w hk
  obtain ⟨h1, h2⟩ := pollLoop_get e s.workers 0 k w hk
  simp only [Nat.zero_add] at h1 h2
  refine ⟨(pollWorker e k w).1, h1, ?_, ?_, ?_, ?_, ?_⟩
  · exact pollWorker_type e k w
  · exact pollWorker_hWrite e k w
  · intro hb hp hl hs hc
    rw [h2]
    have hmin : min 4 (e.read k).count = 4 := by omega
    simp [pollWorker, hb, hp, hl, ReadFile, ReadRes.bytesRead, hs, hmin, hc]
  · intro hb hl
    rw [h2]
    have : ¬ 4 ≤ w.hRead.length := by omega
    simp [pollWorker, hb, this]
  · intro hb
    rw [h2]
    simp [pollWorker, hb]

/-- C7 on a pool of an idle worker, a busy worker with a response waiting and a busy
worker with only 2 bytes waiting: the second becomes idle and its completion carries
5, the others are unchanged. -/
theorem pollPhase_spec_witness :
    pollPhase Env.good pollExample =
      ⟨[⟨1, false, [], []⟩, ⟨2, false, [], []⟩, ⟨3, true, [], [1, 0]⟩], [⟨4, 1⟩],
        [Event.completed 1 2 5]⟩ ∧
    (pollPhase Env.good pollExample).jobQueue = pollExample.jobQueue ∧
    (pollPhase Env.good pollExample).workers.length = pollExample.workers.length :=
  ⟨by decide, (pollPhase_spec Env.good pollExample).1,
    (pollPhase_spec Env.good pollExample).2.1⟩

/-! ## Loop exit -/

theorem allIdle_iff (ws : List WorkerInfo) :
    allIdle ws = true ↔ ∀ w ∈ ws, w.busy = false := by
  induction ws with
  | nil => simp [allIdle]
  | cons w ws ih =>
    cases hb : w.busy <;> simp [allIdle, hb, ih]

theorem iteration_exit_iff (e : Env) (s : MState) :
    (iteration e s).2 = true ↔
      (pollPhase e s).jobQueue = [] ∧ ∀ w ∈ (pollPhase e s).workers, w.busy = false := by
  rw [← allIdle_iff]
  unfold iteration
  dsimp only
  cases hq : (pollPhase e s).jobQueue with
  | nil => cases hi : allIdle (pollPhase e s).workers <;> simp
  | cons j js => simp

theorem iteration_exit_state (e : Env) (s : MState) (h : (iteration e s).2 = true) :
    (iteration e s).1 = pollPhase e s := by
  unfold iteration at h ⊢
  dsimp only at h ⊢
  split_ifs at h ⊢
  rfl

theorem mainLoop_exit (as : List Action) :
    ∀ s, (mainLoop as s).2 = true →
      (mainLoop as s).1.jobQueue = [] ∧ ∀ w ∈ (mainLoop as s).1.workers, w.busy = false := by
  induction as with
  | nil => intro s h; simp [mainLoop] at h
  | cons a as ih =>
    intro s h
    cases a with
    | iter e =>
      simp only [mainLoop] at h ⊢
      by_cases hx : (iteration e s).2 = true
      · simp only [hx, if_true]
        rw [iteration_exit_state e s hx]
        exact (iteration_exit_iff e s).1 hx
      · simp only [hx] at h ⊢
        exact ih _ h
    | pipes idx hw hr =>
      simp only [mainLoop] at h ⊢
      exact ih _ h

/-- C8: an iteration takes the `break` of line 244 exactly when, after its poll phase,
the queue is empty and no worker is busy, and then it leaves the state of the poll
phase untouched.  So whenever the dispatcher gets to its termination writes, it left
the loop in a state with an empty queue and every worker idle. -/
theorem loop_exit_spec :
    (∀ (e : Env) (s : MState),
      ((iteration e s).2 = true ↔
        (pollPhase e s).jobQueue = [] ∧ ∀ w ∈ (pollPhase e s).workers, w.busy = false) ∧
      ((iteration e s).2 = true → (iteration e s).1 = pollPhase e s)) ∧
    (∀ (as : List Action) (e : Env) (s : MState) (r : MState × MState × Int),
      dispatcher as e s = some r →
        r.1.jobQueue = [] ∧ ∀ w ∈ r.1.workers, w.busy = false) := by
  refine ⟨fun e s => ⟨iteration_exit_iff e s, iteration_exit_state e s⟩, ?_⟩
  intro as e s r h
  unfold dispatcher at h
  dsimp only at h
  by_cases hx : (mainLoop as s).2 = true
  · simp only [hx, if_true, Option.some.injEq] at h
    subst h
    exact mainLoop_exit as s hx
  · simp [hx] at h

/-- C8 on a run of one busy worker whose response arrives before the second
iteration: the dispatcher gets to its termination writes, with an empty queue and the
worker idle. -/
theorem loop_exit_spec_witness :
    dispatcher [Action.iter Env.good, Action.pipes 0 [] (encodeInt 2), Action.iter Env.good]
        Env.good ⟨[⟨1, true, [], []⟩], [], []⟩ =
      some (⟨[⟨1, false, [], []⟩], [], [Event.completed 0 1 2]⟩,
            ⟨[⟨1, false, encodeInt 0, []⟩], [], [Event.completed 0 1 2]⟩, 0) ∧
    ((⟨[⟨1, false, [], []⟩], [], [Event.completed 0 1 2]⟩ : MState).jobQueue = [] ∧
      ∀ w ∈ (⟨[⟨1, false, [], []⟩], [], [Event.completed 0 1 2]⟩ : MState).workers,
        w.busy = false) :=
  ⟨by decide,
   loop_exit_spec.2
    [Action.iter Env.good, Action.pipes 0 [] (encodeInt 2), Action.iter Env.good]
    Env.good ⟨[⟨1, true, [], []⟩], [], []⟩
    (⟨[⟨1, false, [], []⟩], [], [Event.completed 0 1 2]⟩,
      ⟨[⟨1, false, encodeInt 0, []⟩], [], [Event.completed 0 1 2]⟩, 0) (by decide)⟩

/-! ## The queue is first in, first out -/

theorem sentJobs_append (l1 l2 : List Event) :
    sentJobs (l1 ++ l2) = sentJobs l1 ++ sentJobs l2 := by
  induction l1 with
  | nil => rfl
  | cons ev l ih => cases ev <;> simp [sentJobs, ih]

theorem pollWorker_events (e : Env) (idx : Nat) (w : WorkerInfo) :
    ∀ ev ∈ (pollWorker e idx w).2, ∃ t d, ev = Event.completed idx t d := by
  intro ev hev
  unfold pollWorker at hev
  dsimp only at hev
  split_ifs at hev <;> simp at hev
  exact ⟨_, _, hev⟩

theorem pollLoop_events (e : Env) (ws : List WorkerInfo) :
    ∀ idx, ∀ ev ∈ (pollLoop e idx ws).2, ∃ i t d, ev = Event.completed i t d := by
  induction ws with
  | nil => intro idx ev hev; simp [pollLoop] at hev
  | cons w ws ih =>
    intro idx ev hev
    simp only [pollLoop, List.mem_append] at hev
    rcases hev with h | h
    · obtain ⟨t, d, h⟩ := pollWorker_events e idx w ev h
      exact ⟨idx, t, d, h⟩
    · exact ih (idx + 1) ev h

theorem sentJobs_completed (l : List Event)
    (h : ∀ ev ∈ l, ∃ i t d, ev = Event.completed i t d) : sentJobs l = [] := by
  induction l with
  | nil => rfl
  | cons ev l ih =>
    obtain ⟨i, t, d, rfl⟩ := h ev (List.mem_cons_self _ _)
    simpa [sentJobs] using ih (fun x hx => h x (List.mem_cons_of_mem _ hx))

theorem sentJobs_failed (l : List Event)
    (h : ∀ ev ∈ l, ∃ i, ev = Event.writeFailed i) : sentJobs l = [] := by
  induction l with
  | nil => rfl
  | cons ev l ih =>
    obtain ⟨i, rfl⟩ := h ev (List.mem_cons_self _ _)
    simpa [sentJobs] using ih (fun x hx => h x (List.mem_cons_of_mem _ hx))

theorem pollPhase_sentJobs (e : Env) (s : MState) :
    sentJobs (pollPhase e s).out = sentJobs s.out := by
  simp only [pollPhase, sentJobs_append]
  rw [sentJobs_completed _ (pollLoop_events e s.workers 0)]
  simp

/-- The scan of lines 215-229 with any pattern of failures: either nothing is
dispatched and only failure lines are printed, or the write to an idle worker of the
job's type succeeded with a whole record and the dispatch line about that worker is
the last line printed, after failure lines only. -/
theorem dispatchScan_cases (e : Env) (job : Job) (ws : List WorkerInfo) :
    ∀ idx,
      ((dispatchScan e job idx ws).dispatched = false ∧
        ∀ ev ∈ (dispatchScan e job idx ws).events, ∃ i, ev = Event.writeFailed i) ∨
      ((dispatchScan e job idx ws).dispatched = true ∧
        ∃ k w fails, ws[k]? = some w ∧ matchesJob job w ∧
          (e.write (idx + k)).success = true ∧ 4 ≤ (e.write (idx + k)).count ∧
          (dispatchScan e job idx ws).events = fails ++ [Event.dispatched (idx + k) job] ∧
          ∀ ev ∈ fails, ∃ i, ev = Event.writeFailed i) := by
  induction ws with
  | nil => intro idx; left; simp [dispatchScan]
  | cons a ws ih =>
    intro idx
    rw [dispatchScan]
    by_cases hc : (a.worker_type == job.type && !a.busy) = true
    · simp only [hc, if_true]
      by_cases hf : (!(WriteFile a.hWrite (encodeInt job.duration) (e.write idx)).success ||
          (WriteFile a.hWrite (encodeInt job.duration) (e.write idx)).bytesWritten != 4) = true
      · simp only [hf, if_true]
        rcases ih (idx + 1) with ⟨h1, h2⟩ | ⟨h1, k, w, fails, hk, hm, hs, hn, hev, hfl⟩
        · left
          refine ⟨h1, ?_⟩
          intro ev hev
          rcases List.mem_cons.1 hev with rfl | hev
          · exact ⟨idx, rfl⟩
          · exact h2 ev hev
        · right
          refine ⟨h1, k + 1, w, Event.writeFailed idx :: fails, by simpa using hk, hm, ?_, ?_, ?_, ?_⟩
          · rw [← hs]; congr 2; omega
          · have : idx + (k + 1) = idx + 1 + k := by omega
            rw [this]; exact hn
          · have : idx + (k + 1) = idx + 1 + k := by omega
            rw [this, hev]; rfl
          · intro ev hev
            rcases List.mem_cons.1 hev with rfl | hev
            · exact ⟨idx, rfl⟩
            · exact hfl ev hev
      · simp only [hf]
        right
        have hlen := encodeInt_length job.duration
        simp only [WriteFile, hlen, Bool.or_eq_true, Bool.not_eq_true', bne_iff_ne, ne_eq,
          not_or, Bool.not_eq_false, Decidable.not_not] at hf
        refine ⟨rfl, 0, a, [], by simp, ?_, hf.1, ?_, rfl, by simp⟩
        · simp only [Bool.and_eq_true, beq_iff_eq, Bool.not_eq_true'] at hc
          exact hc
        · have := hf.2
          simp only [Nat.add_zero]
          omega
    · simp only [hc]
      rcases ih (idx + 1) with ⟨h1, h2⟩ | ⟨h1, k, w, fails, hk, hm, hs, hn, hev, hfl⟩
      · left; exact ⟨h1, h2⟩
      · right
        have hi : idx + (k + 1) = idx + 1 + k := by omega
        refine ⟨h1, k + 1, w, fails, by simpa using hk, hm, ?_, ?_, ?_, hfl⟩
        · rw [hi]; exact hs
        · rw [hi]; exact hn
        · rw [hi]; exact hev

theorem dispatchScan_sent (e : Env) (job : Job) (ws : List WorkerInfo) (idx : Nat) :
    sentJobs (dispatchScan e job idx ws).events =
      if (dispatchScan e job idx ws).dispatched then [job] else [] := by
  rcases dispatchScan_cases e job ws idx with ⟨h1, h2⟩ | ⟨h1, k, w, fails, _, _, _, _, hev, hfl⟩
  · simp [h1, sentJobs_failed _ h2]
  · simp [h1, hev, sentJobs_append, sentJobs_failed _ hfl, sentJobs]

theorem dispatchPhase_fifo (e : Env) (s : MState) :
    sentJobs (dispatchPhase e s).out ++ (dispatchPhase e s).jobQueue =
      sentJobs s.out ++ s.jobQueue := by
  unfold dispatchPhase
  cases hq : s.jobQueue with
  | nil => simp [hq]
  | cons job rest =>
    simp only [sentJobs_append, dispatchScan_sent]
    cases (dispatchScan e job 0 s.workers).dispatched <;> simp

theorem iteration_fifo (e : Env) (s : MState) :
    sentJobs (iteration e s).1.out ++ (iteration e s).1.jobQueue =
      sentJobs s.out ++ s.jobQueue := by
  have hp : sentJobs (pollPhase e s).out ++ (pollPhase e s).jobQueue =
      sentJobs s.out ++ s.jobQueue := by
    rw [pollPhase_sentJobs]; rfl
  unfold iteration
  dsimp only
  split_ifs
  · rw [dispatchPhase_fifo, hp]
  · exact hp
  · exact hp

theorem mainLoop_fifo (as : List Action) :
    ∀ s, sentJobs (mainLoop as s).1.out ++ (mainLoop as s).1.jobQueue =
      sentJobs s.out ++ s.jobQueue := by
  induction as with
  | nil => intro s; rfl
  | cons a as ih =>
    intro s
    cases a with
    | iter e =>
      simp only [mainLoop]
      split_ifs
      · exact iteration_fifo e s
      · rw [ih, iteration_fifo]
    | pipes idx hw hr =>
      simp only [mainLoop]
      rw [ih]

theorem iteration_dequeue (e : Env) (s : MState) :
    ((iteration e s).1.jobQueue = s.jobQueue ∧
      sentJobs (iteration e s).1.out = sentJobs s.out) ∨
    (∃ job k w fails, s.jobQueue = job :: (iteration e s).1.jobQueue ∧
      (pollPhase e s).workers[k]? = some w ∧ w.worker_type = job.type ∧ w.busy = false ∧
      (e.write k).success = true ∧ 4 ≤ (e.write k).count ∧
      (iteration e s).1.out = (pollPhase e s).out ++ (fails ++ [Event.dispatched k job]) ∧
      ∀ ev ∈ fails, ∃ i, ev = Event.writeFailed i) := by
  have hpq : (pollPhase e s).jobQueue = s.jobQueue := rfl
  unfold iteration
  dsimp only
  split_ifs with h1 h2
  · cases hq : s.jobQueue with
    | nil => simp [hpq, hq] at h1
    | cons job rest =>
      have hq2 : (pollPhase e s).jobQueue = job :: rest := by rw [hpq, hq]
      rcases dispatchScan_cases e job (pollPhase e s).workers 0 with
        ⟨hd, hf⟩ | ⟨hd, k, w, fails, hk, hm, hs, hn, hev, hfl⟩
      · left
        simp only [dispatchPhase, hq2, hd, sentJobs_append, sentJobs_failed _ hf,
          pollPhase_sentJobs]
        simp
      · right
        simp only [Nat.zero_add] at hs hn hev
        refine ⟨job, k, w, fails, ?_, hk, hm.1, hm.2, hs, hn, ?_, hfl⟩
        · simp [dispatchPhase, hq2, hd]
        · simp [dispatchPhase, hq2, hev]
  · left; exact ⟨rfl, pollPhase_sentJobs e s⟩
  · left; exact ⟨rfl, pollPhase_sentJobs e s⟩

/-- C2: started with nothing printed yet, after any schedule of loop iterations and
pipe changes, with any pattern of failing calls, the jobs sent so far followed by the
queue are the initial queue.  And one iteration either leaves the queue and the list of
sent jobs as they are, or removes the front job alone, in which case that job was
written as a whole record, successfully, to a worker that was idle and of its type
after the poll phase, and its dispatch line is the last line printed. -/
theorem queue_fifo (as : List Action) (s : MState) (h0 : s.out = []) :
    sentJobs (mainLoop as s).1.out ++ (mainLoop as s).1.jobQueue = s.jobQueue ∧
    ∀ (e : Env) (s1 : MState),
      ((iteration e s1).1.jobQueue = s1.jobQueue ∧
        sentJobs (iteration e s1).1.out = sentJobs s1.out) ∨
      (∃ job k w fails, s1.jobQueue = job :: (iteration e s1).1.jobQueue ∧
        (pollPhase e s1).workers[k]? = some w ∧ w.worker_type = job.type ∧ w.busy = false ∧
        (e.write k).success = true ∧ 4 ≤ (e.write k).count ∧
        (iteration e s1).1.out = (pollPhase e s1).out ++ (fails ++ [Event.dispatched k job]) ∧
        ∀ ev ∈ fails, ∃ i, ev = Event.writeFailed i) := by
  refine ⟨?_, iteration_dequeue⟩
  rw [mainLoop_fifo, h0]
  rfl

/-- C2 on a run whose first send fails, whose second succeeds and whose worker then
answers: one job sent, one still queued. -/
theorem queue_fifo_witness :
    sentJobs (mainLoop [Action.iter Env.bad, Action.iter Env.good,
        Action.pipes 0 [] (encodeInt 3), Action.iter Env.good]
        ⟨[⟨1, false, [], []⟩], [⟨1, 3⟩, ⟨2, 2⟩], []⟩).1.out ++
      (mainLoop [Action.iter Env.bad, Action.iter Env.good,
        Action.pipes 0 [] (encodeInt 3), Action.iter Env.good]
        ⟨[⟨1, false, [], []⟩], [⟨1, 3⟩, ⟨2, 2⟩], []⟩).1.jobQueue =
      [⟨1, 3⟩, ⟨2, 2⟩] :=
  (queue_fifo [Action.iter Env.bad, Action.iter Env.good,
        Action.pipes 0 [] (encodeInt 3), Action.iter Env.good]
        ⟨[⟨1, false, [], []⟩], [⟨1, 3⟩, ⟨2, 2⟩], []⟩ rfl).1

/-! ## A job no worker can take -/

theorem pollLoop_types (e : Env) (ws : List WorkerInfo) :
    ∀ idx, (pollLoop e idx ws).1.map (fun w => w.worker_type) =
      ws.map (fun w => w.worker_type) := by
  induction ws with
  | nil => intro idx; rfl
  | cons w ws ih => intro idx; simp [pollLoop, ih, pollWorker_type]

theorem dispatchScan_types (e : Env) (job : Job) (ws : List WorkerInfo) :
    ∀ idx, (dispatchScan e job idx ws).workers.map (fun w => w.worker_type) =
      ws.map (fun w => w.worker_type) := by
  induction ws with
  | nil => intro idx; rfl
  | cons w ws ih =>
    intro idx
    rw [dispatchScan]
    dsimp only
    split_ifs <;> simp [ih]

theorem setPipes_types (hw hr : List Nat) (ws : List WorkerInfo) :
    ∀ idx, (setPipes idx hw hr ws).map (fun w => w.worker_type) =
      ws.map (fun w => w.worker_type) := by
  induction ws with
  | nil => intro idx; cases idx <;> rfl
  | cons w ws ih =>
    intro idx
    cases idx with
    | zero => rfl
    | succ idx => simp [setPipes, ih]

theorem pollPhase_types (e : Env) (s : MState) :
    (pollPhase e s).workers.map (fun w => w.worker_type) =
      s.workers.map (fun w => w.worker_type) :=
  pollLoop_types e s.workers 0

theorem dispatchPhase_types (e : Env) (s : MState) :
    (dispatchPhase e s).workers.map (fun w => w.worker_type) =
      s.workers.map (fun w => w.worker_type) := by
  unfold dispatchPhase
  cases s.jobQueue with
  | nil => rfl
  | cons job rest => exact dispatchScan_types e job s.workers 0

theorem iteration_types (e : Env) (s : MState) :
    (iteration e s).1.workers.map (fun w => w.worker_type) =
      s.workers.map (fun w => w.worker_type) := by
  unfold iteration
  dsimp only
  split_ifs
  · rw [dispatchPhase_types, pollPhase_types]
  · exact pollPhase_types e s
  · exact pollPhase_types e s

theorem iteration_stalled (j : Job) (behind : List Job) (e : Env) (s : MState)
    (h : Stalled j behind s) :
    Stalled j behind (iteration e s).1 ∧ (iteration e s).2 = false := by
  obtain ⟨⟨pre, hq⟩, hno⟩ := h
  have hno2 : noWorkerFor j (iteration e s).1.workers := by
    unfold noWorkerFor; rw [iteration_types]; exact hno
  have hex : (iteration e s).2 = false := by
    cases hx : (iteration e s).2 with
    | false => rfl
    | true =>
      have := ((iteration_exit_iff e s).1 hx).1
      have hpq : (pollPhase e s).jobQueue = s.jobQueue := rfl
      rw [hpq, hq] at this
      simp at this
  refine ⟨⟨?_, hno2⟩, hex⟩
  rcases iteration_dequeue e s with ⟨h1, _⟩ | ⟨job, k, w, fails, h1, hk, ht, _⟩
  · exact ⟨pre, by rw [h1, hq]⟩
  · have hmem : w.worker_type ∈ s.workers.map (fun w => w.worker_type) := by
      rw [← pollPhase_types e s]
      exact List.mem_map.2 ⟨w, List.getElem?_mem hk, rfl⟩
    have hne : job.type ≠ j.type := by
      rw [← ht]; exact hno _ hmem
    cases pre with
    | nil =>
      rw [hq] at h1
      simp only [List.nil_append, List.cons.injEq] at h1
      exact absurd (by rw [h1.1]) hne
    | cons p pre =>
      rw [hq] at h1
      simp only [List.cons_append, List.cons.injEq] at h1
      exact ⟨pre, h1.2.symm⟩

theorem mainLoop_stalled (j : Job) (behind : List Job) (as : List Action) :
    ∀ s, Stalled j behind s →
      Stalled j behind (mainLoop as s).1 ∧ (mainLoop as s).2 = false := by
  induction as with
  | nil => intro s h; exact ⟨h, rfl⟩
  | cons a as ih =>
    intro s h
    cases a with
    | iter e =>
      obtain ⟨h1, h2⟩ := iteration_stalled j behind e s h
      simp only [mainLoop, h2]
      exact ih _ h1
    | pipes idx hw hr =>
      simp only [mainLoop]
      refine ih _ ⟨h.1, ?_⟩
      unfold noWorkerFor
      rw [setPipes_types]
      exact h.2

/-- C9: if the queue holds a job `j` whose type is the type of no worker of the pool,
then after any schedule of loop iterations and pipe changes, whatever the calls
return and whatever the workers put in their pipes, the loop has not taken its
`break`, the queue still ends with `j` followed by every job that was behind it, and
so is not empty. -/
theorem unserved_job_stalls (as : List Action) (s : MState) (pre : List Job) (j : Job)
    (behind : List Job) (hq : s.jobQueue = pre ++ j :: behind)
    (hno : ∀ w ∈ s.workers, w.worker_type ≠ j.type) :
    (mainLoop as s).2 = false ∧
    (∃ pre2, (mainLoop as s).1.jobQueue = pre2 ++ j :: behind) ∧
    (mainLoop as s).1.jobQueue ≠ [] ∧
    ∀ w ∈ (mainLoop as s).1.workers, w.worker_type ≠ j.type := by
  have hst : Stalled j behind s := by
    refine ⟨⟨pre, hq⟩, ?_⟩
    intro t ht
    obtain ⟨w, hw, rfl⟩ := List.mem_map.1 ht
    exact hno w hw
  obtain ⟨⟨⟨pre2, h1⟩, h3⟩, h2⟩ := mainLoop_stalled j behind as s hst
  refine ⟨h2, ⟨pre2, h1⟩, ?_, ?_⟩
  · rw [h1]; simp
  · intro w hw
    exact h3 _ (List.mem_map.2 ⟨w, hw, rfl⟩)

/-- C9 on a pool with one worker of type 1 and a queue whose second job has type 4:
the first job is served and answered, the second stalls the loop. -/
theorem unserved_job_stalls_witness :
    (mainLoop [Action.iter Env.good, Action.pipes 0 [] (encodeInt 3), Action.iter Env.good,
        Action.iter Env.good]
      ⟨[⟨1, false, [], []⟩], [⟨1, 3⟩, ⟨4, 7⟩, ⟨1, 2⟩], []⟩).2 = false ∧
    (∃ pre2, (mainLoop [Action.iter Env.good, Action.pipes 0 [] (encodeInt 3),
        Action.iter Env.good, Action.iter Env.good]
      ⟨[⟨1, false, [], []⟩], [⟨1, 3⟩, ⟨4, 7⟩, ⟨1, 2⟩], []⟩).1.jobQueue =
        pre2 ++ ⟨4, 7⟩ :: [⟨1, 2⟩]) ∧
    (mainLoop [Action.iter Env.good, Action.pipes 0 [] (encodeInt 3), Action.iter Env.good,
        Action.iter Env.good]
      ⟨[⟨1, false, [], []⟩], [⟨1, 3⟩, ⟨4, 7⟩, ⟨1, 2⟩], []⟩).1.jobQueue ≠ [] ∧
    ∀ w ∈ (mainLoop [Action.iter Env.good, Action.pipes 0 [] (encodeInt 3),
        Action.iter Env.good, Action.iter Env.good]
      ⟨[⟨1, false, [], []⟩], [⟨1, 3⟩, ⟨4, 7⟩, ⟨1, 2⟩], []⟩).1.workers,
        w.worker_type ≠ (⟨4, 7⟩ : Job).type :=
  unserved_job_stalls [Action.iter Env.good, Action.pipes 0 [] (encodeInt 3),
      Action.iter Env.good, Action.iter Env.good]
    ⟨[⟨1, false, [], []⟩], [⟨1, 3⟩, ⟨4, 7⟩, ⟨1, 2⟩], []⟩ [⟨1, 3⟩] ⟨4, 7⟩ [⟨1, 2⟩] rfl
    (by decide)

/-! ## A failed send -/

theorem dispatchScan_flags (e : Env) (job : Job) (ws : List WorkerInfo) :
    ∀ idx, (dispatchScan e job idx ws).dispatched = false →
      (dispatchScan e job idx ws).workers.map flags = ws.map flags := by
  induction ws with
  | nil => intro idx _; rfl
  | cons w ws ih =>
    intro idx
    rw [dispatchScan]
    dsimp only
    split_ifs
    · intro h; simp [flags, ih (idx + 1) h]
    · intro h; simp at h
    · intro h; simp [ih (idx + 1) h]

theorem dispatchScan_allfail (e : Env) (job : Job) (ws : List WorkerInfo) (idx : Nat)
    (hfail : ∀ i, (e.write i).success = false ∨ (e.write i).count < 4) :
    (dispatchScan e job idx ws).dispatched = false := by
  rcases dispatchScan_cases e job ws idx with ⟨h, _⟩ | ⟨_, k, _, _, _, _, hs, hn, _⟩
  · exact h
  · rcases hfail (idx + k) with h | h
    · rw [h] at hs; simp at hs
    · omega

theorem dispatchPhase_cons (e : Env) (s : MState) (job : Job) (rest : List Job)
    (hq : s.jobQueue = job :: rest) :
    dispatchPhase e s =
      { workers := (dispatchScan e job 0 s.workers).workers,
        jobQueue := if (dispatchScan e job 0 s.workers).dispatched then rest else job :: rest,
        out := s.out ++ (dispatchScan e job 0 s.workers).events } := by
  simp only [dispatchPhase, hq]

theorem matches_iff_flags (job : Job) (ws : List WorkerInfo) :
    (∃ x ∈ ws, matchesJob job x) ↔ (job.type, false) ∈ ws.map flags := by
  simp only [List.mem_map, flags, matchesJob, Prod.mk.injEq]

/-- C10 as stated fails: with one idle worker of type 1 and the queue `[(1, 3)]`, a
`WriteFile` that fails (or one that succeeds with 2 bytes only) prints the failure
line and leaves the job at the front of the queue and the worker idle; the next
dispatch phase tries the same job again and, its write succeeding, sends it. -/
theorem send_failure_not_dropped :
    dispatchPhase Env.bad ⟨[⟨1, false, [], []⟩], [⟨1, 3⟩], []⟩ =
      ⟨[⟨1, false, [], []⟩], [⟨1, 3⟩], [Event.writeFailed 0]⟩ ∧
    (dispatchPhase Env.bad ⟨[⟨1, false, [], []⟩], [⟨1, 3⟩], []⟩).jobQueue ≠ [] ∧
    (dispatchPhase { Env.good with write := fun _ => ⟨true, 2⟩ }
        ⟨[⟨1, false, [], []⟩], [⟨1, 3⟩], []⟩).jobQueue = [⟨1, 3⟩] ∧
    dispatchPhase Env.good (dispatchPhase Env.bad ⟨[⟨1, false, [], []⟩], [⟨1, 3⟩], []⟩) =
      ⟨[⟨1, true, encodeInt 3, []⟩], [],
        [Event.writeFailed 0, Event.dispatched 0 ⟨1, 3⟩]⟩ := by
  decide

theorem dispatchScan_first_fails (e : Env) (job : Job) (pre : List WorkerInfo)
    (w : WorkerInfo) (post : List WorkerInfo) (hw : matchesJob job w) :
    ∀ idx, (∀ x ∈ pre, ¬ matchesJob job x) →
      ((e.write (idx + pre.length)).success = false ∨ (e.write (idx + pre.length)).count < 4) →
      dispatchScan e job idx (pre ++ w :: post) =
        { workers := pre ++
            { w with hWrite := (WriteFile w.hWrite (encodeInt job.duration)
                (e.write (idx + pre.length))).pipe } ::
            (dispatchScan e job (idx + pre.length + 1) post).workers,
          events := Event.writeFailed (idx + pre.length) ::
            (dispatchScan e job (idx + pre.length + 1) post).events,
          dispatched := (dispatchScan e job (idx + pre.length + 1) post).dispatched } := by
  induction pre with
  | nil =>
    intro idx _ hfail
    have hc : (w.worker_type == job.type && !w.busy) = true := by
      simp [hw.1, hw.2]
    have hf : (!(WriteFile w.hWrite (encodeInt job.duration) (e.write idx)).success ||
        (WriteFile w.hWrite (encodeInt job.duration) (e.write idx)).bytesWritten != 4) = true := by
      simp only [WriteFile, encodeInt_length, Bool.or_eq_true, Bool.not_eq_true', bne_iff_ne,
        ne_eq]
      simp only [List.length_nil, Nat.add_zero] at hfail
      rcases hfail with h | h
      · exact Or.inl h
      · right; omega
    simp only [List.nil_append, List.length_nil, Nat.add_zero]
    rw [dispatchScan]
    simp only [hc, hf, if_true]
  | cons x pre ih =>
    intro idx h hfail
    have hx : ¬ matchesJob job x := h x (List.mem_cons_self _ _)
    have hc : (x.worker_type == job.type && !x.busy) = false := by
      simp only [matchesJob] at hx
      cases hb : x.busy <;> simp_all
    have hi : idx + (x :: pre).length = idx + 1 + pre.length := by
      simp only [List.length_cons]; omega
    rw [hi] at hfail ⊢
    rw [List.cons_append, dispatchScan]
    simp only [hc]
    rw [ih (idx + 1) (fun y hy => h y (List.mem_cons_of_mem _ hy)) hfail]
    simp

/-- C10 amended: when the write to the first idle worker of the front job's type fails
or writes fewer than 4 bytes, the dispatch phase prints the failure line, leaves that
worker idle and scans the later workers as it would have from there; the job leaves
the queue only if one of them is sent it, so the jobs sent followed by the queue are
what they were.  When every write of the phase fails, the job stays at the front of
the queue, no worker changes type or busy flag, no job is sent, and the next dispatch
phase whose sends succeed removes that same job from the queue and sends it. -/
theorem send_failure_keeps_job (e e2 : Env) (s : MState) (job : Job) (rest : List Job)
    (pre : List WorkerInfo) (w : WorkerInfo) (post : List WorkerInfo)
    (hq : s.jobQueue = job :: rest) (hws : s.workers = pre ++ w :: post)
    (hw : w.worker_type = job.type ∧ w.busy = false)
    (hpre : ∀ x ∈ pre, ¬ (x.worker_type = job.type ∧ x.busy = false))
    (hfail : (e.write pre.length).success = false ∨ (e.write pre.length).count < 4) :
    dispatchPhase e s =
      { workers := pre ++
          { worker_type := w.worker_type, busy := false,
            hWrite := (WriteFile w.hWrite (encodeInt job.duration) (e.write pre.length)).pipe,
            hRead := w.hRead } ::
          (dispatchScan e job (pre.length + 1) post).workers,
        jobQueue := if (dispatchScan e job (pre.length + 1) post).dispatched then rest
          else job :: rest,
        out := s.out ++ Event.writeFailed pre.length ::
          (dispatchScan e job (pre.length + 1) post).events } ∧
    sentJobs (dispatchPhase e s).out ++ (dispatchPhase e s).jobQueue =
      sentJobs s.out ++ job :: rest ∧
    ((∀ i, (e.write i).success = false ∨ (e.write i).count < 4) →
      (dispatchPhase e s).jobQueue = job :: rest ∧
      (dispatchPhase e s).workers.map flags = s.workers.map flags ∧
      sentJobs (dispatchPhase e s).out = sentJobs s.out ∧
      (e2.sendsOk →
        (dispatchPhase e2 (dispatchPhase e s)).jobQueue = rest ∧
        sentJobs (dispatchPhase e2 (dispatchPhase e s)).out = sentJobs s.out ++ [job])) := by
  refine ⟨?_, ?_, ?_⟩
  · rw [dispatchPhase_cons e s job rest hq, hws]
    have hfail2 : (e.write (0 + pre.length)).success = false ∨
        (e.write (0 + pre.length)).count < 4 := by
      rw [Nat.zero_add]; exact hfail
    rw [dispatchScan_first_fails e job pre w post hw 0 hpre hfail2]
    simp only [Nat.zero_add]
    have hb : w.busy = false := hw.2
    cases w
    simp only at hb
    subst hb
    rfl
  · rw [dispatchPhase_fifo, hq]
  · intro hall
    have hd := dispatchScan_allfail e job s.workers 0 hall
    have hq1 : (dispatchPhase e s).jobQueue = job :: rest := by
      simp [dispatchPhase, hq, hd]
    have hw1 : (dispatchPhase e s).workers.map flags = s.workers.map flags := by
      simp only [dispatchPhase, hq]
      exact dispatchScan_flags e job s.workers 0 hd
    have hs1 : sentJobs (dispatchPhase e s).out = sentJobs s.out := by
      simp [dispatchPhase, hq, sentJobs_append, dispatchScan_sent, hd]
    refine ⟨hq1, hw1, hs1, ?_⟩
    intro hok
    have hex2 : ∃ x ∈ (dispatchPhase e s).workers, matchesJob job x := by
      rw [matches_iff_flags, hw1, ← matches_iff_flags, hws]
      exact ⟨w, by simp, hw⟩
    obtain ⟨pre2, w2, post2, hws2, hw2, hpre2⟩ := exists_first_match job _ hex2
    have hscan := dispatchScan_found e2 job hok pre2 w2 post2 hw2 0 hpre2
    rw [← hws2] at hscan
    rw [dispatchPhase_cons e2 _ job rest hq1, hscan]
    constructor
    · rfl
    · simp only [sentJobs_append, hs1]
      rfl

/-- C10 amended, on a pool of two idle workers of type 1 whose writes both fail: the
job stays at the front of the queue, and the next dispatch phase sends it. -/
theorem send_failure_keeps_job_witness :
    (dispatchPhase Env.bad ⟨[⟨1, false, [], []⟩, ⟨1, false, [], []⟩], [⟨1, 3⟩, ⟨2, 1⟩], []⟩).jobQueue
      = [⟨1, 3⟩, ⟨2, 1⟩] ∧
    (dispatchPhase Env.good
      (dispatchPhase Env.bad
        ⟨[⟨1, false, [], []⟩, ⟨1, false, [], []⟩], [⟨1, 3⟩, ⟨2, 1⟩], []⟩)).jobQueue =
      [⟨2, 1⟩] :=
  have h := (send_failure_keeps_job Env.bad Env.good
    ⟨[⟨1, false, [], []⟩, ⟨1, false, [], []⟩], [⟨1, 3⟩, ⟨2, 1⟩], []⟩ ⟨1, 3⟩ [⟨2, 1⟩]
    [] ⟨1, false, [], []⟩ [⟨1, false, [], []⟩] rfl rfl ⟨rfl, rfl⟩ (by simp)
    (Or.inl rfl)).2.2 (fun _ => Or.inl rfl)
  ⟨h.1, (h.2.2.2 (fun _ => ⟨rfl, Nat.le_refl 4⟩)).1⟩

/-! ## Requests and responses alternate -/

theorem chanOps_append (i : Nat) (l1 l2 : List Event) :
    chanOps i (l1 ++ l2) = chanOps i l1 ++ chanOps i l2 := by
  induction l1 with
  | nil => rfl
  | cons ev l ih =>
    cases ev with
    | completed j t d =>
      rw [List.cons_append, chanOps, chanOps, ih]
      split_ifs <;> rfl
    | dispatched j job =>
      rw [List.cons_append, chanOps, chanOps, ih]
      split_ifs <;> rfl
    | writeFailed j =>
      rw [List.cons_append, chanOps, chanOps, ih]

theorem chanOps_other (i : Nat) (l : List Event) (h : ∀ ev ∈ l, ev.idx ≠ i) :
    chanOps i l = [] := by
  induction l with
  | nil => rfl
  | cons ev l ih =>
    have h1 := h ev (List.mem_cons_self _ _)
    have h2 := ih (fun x hx => h x (List.mem_cons_of_mem _ hx))
    cases ev <;> simp_all [chanOps, Event.idx]

theorem alternating_snoc (ops : List Bool) :
    ∀ x b, alternating x (ops ++ [b]) =
      (alternating x ops && (b == (if ops.length % 2 = 0 then x else !x))) := by
  induction ops with
  | nil => intro x b; simp [alternating]
  | cons a ops ih =>
    intro x b
    rw [List.cons_append, alternating, alternating, ih, List.length_cons]
    by_cases hp : ops.length % 2 = 0
    · have : ¬ (ops.length + 1) % 2 = 0 := by omega
      simp [hp, this, Bool.and_assoc]
    · have : (ops.length + 1) % 2 = 0 := by omega
      simp [hp, this, Bool.and_assoc]

theorem ChanInv_step (i : Nat) (l evs : List Event) (w w2 : WorkerInfo)
    (h : ChanInv (chanOps i l) w.busy) (hr : StepRel i evs w w2) :
    ChanInv (chanOps i (l ++ evs)) w2.busy := by
  obtain ⟨ha, hb⟩ := h
  rw [chanOps_append]
  rcases hr with ⟨h1, h2⟩ | ⟨h1, h2, h3⟩ | ⟨h1, h2, h3⟩
  · rw [h2, List.append_nil, h1]; exact ⟨ha, hb⟩
  · rw [h3, h2]
    rw [h1] at hb
    have hp : (chanOps i l).length % 2 = 0 := by
      have := hb.symm
      simp only [decide_eq_false_iff_not] at this
      omega
    refine ⟨?_, ?_⟩
    · rw [alternating_snoc, ha]; simp [hp]
    · simp only [List.length_append, List.length_singleton]
      symm; simp only [decide_eq_true_eq]; omega
  · rw [h3, h2]
    rw [h1] at hb
    have hp : (chanOps i l).length % 2 = 1 := by
      have := hb.symm
      simpa using this
    refine ⟨?_, ?_⟩
    · rw [alternating_snoc, ha]
      have : ¬ (chanOps i l).length % 2 = 0 := by omega
      simp [this]
    · simp only [List.length_append, List.length_singleton]
      symm; simp only [decide_eq_false_iff_not]; omega

theorem pollWorker_rel (e : Env) (i : Nat) (w : WorkerInfo) :
    StepRel i (pollWorker e i w).2 w (pollWorker e i w).1 := by
  unfold pollWorker
  dsimp only
  split_ifs with h1 h2 h3
  · right; right; exact ⟨h1, rfl, by simp [chanOps]⟩
  · left; exact ⟨rfl, rfl⟩
  · left; exact ⟨rfl, rfl⟩
  · left; exact ⟨rfl, rfl⟩

theorem StepRel_extend (i : Nat) (evs more : List Event) (w w2 : WorkerInfo)
    (h : StepRel i evs w w2) (hm : ∀ ev ∈ more, ev.idx ≠ i) :
    StepRel i (evs ++ more) w w2 ∧ StepRel i (more ++ evs) w w2 := by
  have h0 := chanOps_other i more hm
  unfold StepRel
  simp only [chanOps_append, h0, List.append_nil, List.nil_append]
  exact ⟨h, h⟩

theorem pollLoop_rel (e : Env) (ws : List WorkerInfo) :
    ∀ idx k w2, (pollLoop e idx ws).1[k]? = some w2 →
      ∃ w, ws[k]? = some w ∧ StepRel (idx + k) (pollLoop e idx ws).2 w w2 := by
  induction ws with
  | nil => intro idx k w2 h; simp [pollLoop] at h
  | cons a ws ih =>
    intro idx k w2 h
    cases k with
    | zero =>
      simp only [pollLoop, List.getElem?_cons_zero, Option.some.injEq] at h
      subst h
      refine ⟨a, by simp, ?_⟩
      simp only [pollLoop, Nat.add_zero]
      refine (StepRel_extend idx _ _ _ _ (pollWorker_rel e idx a) ?_).1
      intro ev hev
      have := pollLoop_idx e ws (idx + 1) ev hev
      omega
    | succ k =>
      simp only [pollLoop, List.getElem?_cons_succ] at h
      obtain ⟨w, hw, hr⟩ := ih (idx + 1) k w2 h
      refine ⟨w, by simpa using hw, ?_⟩
      have hk : idx + (k + 1) = idx + 1 + k := by omega
      simp only [pollLoop, hk]
      refine (StepRel_extend _ _ _ _ _ hr ?_).2
      intro ev hev
      have := pollWorker_idx e idx a ev hev
      omega

theorem dispatchScan_idx (e : Env) (job : Job) (ws : List WorkerInfo) :
    ∀ idx, ∀ ev ∈ (dispatchScan e job idx ws).events, idx ≤ ev.idx := by
  induction ws with
  | nil => intro idx ev hev; simp [dispatchScan] at hev
  | cons a ws ih =>
    intro idx ev hev
    rw [dispatchScan] at hev
    dsimp only at hev
    split_ifs at hev
    · rcases List.mem_cons.1 hev with rfl | h
      · exact Nat.le_refl _
      · exact Nat.le_of_succ_le (ih (idx + 1) ev h)
    · simp only [List.mem_singleton] at hev
      subst hev; exact Nat.le_refl _
    · exact Nat.le_of_succ_le (ih (idx + 1) ev hev)

theorem dispatchScan_rel (e : Env) (job : Job) (ws : List WorkerInfo) :
    ∀ idx k w2, (dispatchScan e job idx ws).workers[k]? = some w2 →
      ∃ w, ws[k]? = some w ∧ StepRel (idx + k) (dispatchScan e job idx ws).events w w2 := by
  induction ws with
  | nil => intro idx k w2 h; simp [dispatchScan] at h
  | cons a ws ih =>
    intro idx k w2 h
    have hrest : ∀ ev ∈ (dispatchScan e job (idx + 1) ws).events, ev.idx ≠ idx := by
      intro ev hev
      have := dispatchScan_idx e job ws (idx + 1) ev hev
      omega
    have hk : ∀ k, idx + (k + 1) = idx + 1 + k := by intro k; omega
    rw [dispatchScan] at h ⊢
    dsimp only at h ⊢
    split_ifs at h ⊢ with hc hf
    · cases k with
      | zero =>
        simp only [List.getElem?_cons_zero, Option.some.injEq] at h
        subst h
        refine ⟨a, by simp, Or.inl ⟨rfl, ?_⟩⟩
        simp only [Nat.add_zero, chanOps]
        exact chanOps_other idx _ hrest
      | succ k =>
        simp only [List.getElem?_cons_succ] at h
        obtain ⟨w, hw, hr⟩ := ih (idx + 1) k w2 h
        refine ⟨w, by simpa using hw, ?_⟩
        rw [hk]
        unfold StepRel at hr ⊢
        simpa only [chanOps] using hr
    · cases k with
      | zero =>
        simp only [List.getElem?_cons_zero, Option.some.injEq] at h
        subst h
        refine ⟨a, by simp, Or.inr (Or.inl ⟨?_, rfl, ?_⟩)⟩
        · simp only [Bool.and_eq_true, Bool.not_eq_true'] at hc
          exact hc.2
        · simp [chanOps]
      | succ k =>
        simp only [List.getElem?_cons_succ] at h
        refine ⟨w2, by simpa using h, Or.inl ⟨rfl, ?_⟩⟩
        have : ¬ idx = idx + (k + 1) := by omega
        simp [chanOps, this]
    · cases k with
      | zero =>
        simp only [List.getElem?_cons_zero, Option.some.injEq] at h
        subst h
        refine ⟨a, by simp, Or.inl ⟨rfl, ?_⟩⟩
        simp only [Nat.add_zero]
        exact chanOps_other idx _ hrest
      | succ k =>
        simp only [List.getElem?_cons_succ] at h
        obtain ⟨w, hw, hr⟩ := ih (idx + 1) k w2 h
        refine ⟨w, by simpa using hw, ?_⟩
        rw [hk]
        exact hr

theorem pollPhase_inv (e : Env) (s : MState) (h : PoolInv s.out s.workers) :
    PoolInv (pollPhase e s).out (pollPhase e s).workers := by
  intro k w2 hk
  obtain ⟨w, hw, hr⟩ := pollLoop_rel e s.workers 0 k w2 hk
  rw [Nat.zero_add] at hr
  exact ChanInv_step k s.out _ w w2 (h k w hw) hr

theorem dispatchPhase_inv (e : Env) (s : MState) (h : PoolInv s.out s.workers) :
    PoolInv (dispatchPhase e s).out (dispatchPhase e s).workers := by
  cases hq : s.jobQueue with
  | nil =>
    have : dispatchPhase e s = s := by simp [dispatchPhase, hq]
    rw [this]; exact h
  | cons job rest =>
    rw [dispatchPhase_cons e s job rest hq]
    intro k w2 hk
    obtain ⟨w, hw, hr⟩ := dispatchScan_rel e job s.workers 0 k w2 hk
    rw [Nat.zero_add] at hr
    exact ChanInv_step k s.out _ w w2 (h k w hw) hr

theorem iteration_inv (e : Env) (s : MState) (h : PoolInv s.out s.workers) :
    PoolInv (iteration e s).1.out (iteration e s).1.workers := by
  have hp := pollPhase_inv e s h
  unfold iteration
  dsimp only
  split_ifs
  · exact dispatchPhase_inv e _ hp
  · exact hp
  · exact hp

theorem setPipes_busy (hw hr : List Nat) (ws : List WorkerInfo) :
    ∀ (idx k : Nat) (w2 : WorkerInfo), (setPipes idx hw hr ws)[k]? = some w2 →
      ∃ w, ws[k]? = some w ∧ w2.busy = w.busy := by
  induction ws with
  | nil => intro idx k w2 h; cases idx <;> simp [setPipes] at h
  | cons a ws ih =>
    intro idx k w2 h
    cases idx with
    | zero =>
      cases k with
      | zero =>
        simp only [setPipes, List.getElem?_cons_zero, Option.some.injEq] at h
        subst h
        exact ⟨a, by simp, rfl⟩
      | succ k =>
        simp only [setPipes, List.getElem?_cons_succ] at h
        exact ⟨w2, by simpa using h, rfl⟩
    | succ idx =>
      cases k with
      | zero =>
        simp only [setPipes, List.getElem?_cons_zero, Option.some.injEq] at h
        subst h
        exact ⟨a, by simp, rfl⟩
      | succ k =>
        simp only [setPipes, List.getElem?_cons_succ] at h
        obtain ⟨w, hw1, hw2⟩ := ih idx k w2 h
        exact ⟨w, by simpa using hw1, hw2⟩

theorem mainLoop_inv (as : List Action) :
    ∀ s, PoolInv s.out s.workers → PoolInv (mainLoop as s).1.out (mainLoop as s).1.workers := by
  induction as with
  | nil => intro s h; exact h
  | cons a as ih =>
    intro s h
    cases a with
    | iter e =>
      simp only [mainLoop]
      split_ifs
      · exact iteration_inv e s h
      · exact ih _ (iteration_inv e s h)
    | pipes idx hw hr =>
      simp only [mainLoop]
      refine ih _ ?_
      intro k w2 hk
      obtain ⟨w, hw1, hw2⟩ := setPipes_busy hw hr s.workers idx k w2 hk
      rw [hw2]
      exact h k w hw1

theorem sentCount_eq (i : Nat) (l : List Event) :
    sentCount i l = (chanOps i l).count true := by
  induction l with
  | nil => rfl
  | cons ev l ih =>
    cases ev with
    | completed j t d =>
      simp only [sentCount, chanOps, ih]
      split_ifs <;> simp
    | dispatched j job =>
      simp only [sentCount, chanOps, ih]
      split_ifs <;> simp [Nat.add_comm]
    | writeFailed j => simp only [sentCount, chanOps, ih]

theorem consumedCount_eq (i : Nat) (l : List Event) :
    consumedCount i l = (chanOps i l).count false := by
  induction l with
  | nil => rfl
  | cons ev l ih =>
    cases ev with
    | completed j t d =>
      simp only [consumedCount, chanOps, ih]
      split_ifs <;> simp [Nat.add_comm]
    | dispatched j job =>
      simp only [consumedCount, chanOps, ih]
      split_ifs <;> simp
    | writeFailed j => simp only [consumedCount, chanOps, ih]

theorem alternating_counts (ops : List Bool) :
    ∀ x, alternating x ops = true →
      (x = true → ops.count true = ops.count false + ops.length % 2) ∧
      (x = false → ops.count false = ops.count true + ops.length % 2) := by
  induction ops with
  | nil => intro x _; simp
  | cons a ops ih =>
    intro x h
    rw [alternating] at h
    simp only [Bool.and_eq_true, beq_iff_eq] at h
    obtain ⟨rfl, h2⟩ := h
    obtain ⟨i1, i2⟩ := ih _ h2
    constructor
    · intro hx
      subst hx
      have := i2 rfl
      simp only [List.count_cons_self, List.length_cons]
      rw [List.count_cons_of_ne (by simp)]
      omega
    · intro hx
      subst hx
      have := i1 rfl
      simp only [List.count_cons_self, List.length_cons]
      rw [List.count_cons_of_ne (by simp)]
      omega

/-- C5: started from a pool whose workers are all idle and with nothing printed yet,
after any schedule of loop iterations and pipe changes, with any pattern of failing
calls, for the worker at every position the requests sent to it are at least the
responses consumed from it and at most one more, it is busy exactly when there is one
more, and its requests and responses alternate, a request first: no request is sent
to it while it is busy. -/
theorem worker_state_invariant (as : List Action) (s : MState)
    (hidle : ∀ w ∈ s.workers, w.busy = false) (h0 : s.out = []) :
    ∀ k w, (mainLoop as s).1.workers[k]? = some w →
      consumedCount k (mainLoop as s).1.out ≤ sentCount k (mainLoop as s).1.out ∧
      sentCount k (mainLoop as s).1.out - consumedCount k (mainLoop as s).1.out ≤ 1 ∧
      (w.busy = true ↔
        sentCount k (mainLoop as s).1.out - consumedCount k (mainLoop as s).1.out = 1) ∧
      alternating true (chanOps k (mainLoop as s).1.out) = true := by
  intro k w hk
  have hinit : PoolInv s.out s.workers := by
    intro j x hj
    rw [h0, hidle x (List.getElem?_mem hj)]
    exact ⟨rfl, by simp [chanOps]⟩
  obtain ⟨ha, hb⟩ := mainLoop_inv as s hinit k w hk
  have hc := (alternating_counts _ true ha).1 rfl
  rw [sentCount_eq, consumedCount_eq]
  have hlt : (chanOps k (mainLoop as s).1.out).length % 2 < 2 := Nat.mod_lt _ (by decide)
  refine ⟨by omega, by omega, ?_, ha⟩
  rw [hb]
  simp only [decide_eq_true_eq]
  omega

/-- C5 on a run of two workers of type 1 and three jobs of that type, in which the
first worker answers its first job and is then sent the third: two requests sent to
it, one response consumed, and it is busy. -/
theorem worker_state_invariant_witness :
    (mainLoop exampleActions examplePool).1.workers[0]? = some ⟨1, true, encodeInt 5, []⟩ ∧
    (consumedCount 0 (mainLoop exampleActions examplePool).1.out ≤
        sentCount 0 (mainLoop exampleActions examplePool).1.out ∧
      sentCount 0 (mainLoop exampleActions examplePool).1.out -
        consumedCount 0 (mainLoop exampleActions examplePool).1.out ≤ 1 ∧
      ((⟨1, true, encodeInt 5, []⟩ : WorkerInfo).busy = true ↔
        sentCount 0 (mainLoop exampleActions examplePool).1.out -
          consumedCount 0 (mainLoop exampleActions examplePool).1.out = 1) ∧
      alternating true (chanOps 0 (mainLoop exampleActions examplePool).1.out) = true) :=
  ⟨by decide,
   worker_state_invariant exampleActions examplePool (by decide) rfl 0
     ⟨1, true, encodeInt 5, []⟩ (by decide)⟩

/-! ## The worker loop -/

theorem afterRead_request (success : Bool) (data : List Nat) (h : isRequest success data) :
    afterRead success data = Proc.working (decodeInt data) := by
  obtain ⟨h1, h2, h3⟩ := h
  simp [afterRead, h1, h2, h3]

theorem afterRead_other (success : Bool) (data : List Nat) (h : ¬ isRequest success data) :
    afterRead success data = Proc.exited 0 := by
  unfold afterRead
  split_ifs with h1 h2
  · rfl
  · rfl
  · exfalso
    apply h
    simp only [Bool.or_eq_true, Bool.not_eq_true', bne_iff_ne, ne_eq, not_or,
      Bool.not_eq_false, Decidable.not_not] at h1
    simp only [beq_iff_eq] at h2
    exact ⟨h1.1, h1.2, h2⟩

theorem afterWrite_eq (success : Bool) (n : Nat) :
    afterWrite success n = if success = true ∧ n = 4 then Proc.reading else Proc.exited 0 := by
  unfold afterWrite
  cases success <;> by_cases hn : n = 4 <;> simp [hn]

/-- One iteration of the worker loop, unfolded. -/
theorem WorkerLoop_cons (x : WEnv) (xs : List WEnv) :
    WorkerLoop (x :: xs) =
      if isRequest x.success x.data then
        WEvent.read x.success x.data :: WEvent.sleep (sleepArg (decodeInt x.data)) ::
          WEvent.write (decodeInt x.data) x.write.success (min x.write.count 4) ::
          (if x.write.success = true ∧ 4 ≤ x.write.count then WorkerLoop xs else [])
      else [WEvent.read x.success x.data] := by
  by_cases h : isRequest x.success x.data
  · rw [if_pos h, WorkerLoop, afterRead_request _ _ h]
    simp only [WriteFile, encodeInt_length, afterWrite_eq]
    by_cases hw : x.write.success = true ∧ 4 ≤ x.write.count
    · have : min x.write.count 4 = 4 := by omega
      simp [hw, this]
    · have : ¬ (x.write.success = true ∧ min x.write.count 4 = 4) := by
        intro hc; apply hw; exact ⟨hc.1, by omega⟩
      simp [hw, this]
  · rw [if_neg h, WorkerLoop, afterRead_other _ _ h]

theorem WorkerLoop_head (xs : List WEnv) :
    ∃ s d t, WorkerLoop xs = WEvent.read s d :: t := by
  cases xs with
  | nil => exact ⟨false, [], [], rfl⟩
  | cons x xs =>
    rw [WorkerLoop_cons]
    split_ifs
    · exact ⟨_, _, _, rfl⟩
    · exact ⟨_, _, _, rfl⟩
    · exact ⟨_, _, _, rfl⟩

/-- What follows any `ReadFile` call in the run of the worker: after a whole record
holding a non-zero value, the sleep and one `WriteFile` of that value, and then either
nothing or the next `ReadFile`; after anything else, nothing. -/
theorem WorkerLoop_read (xs : List WEnv) :
    ∀ pre s d post, WorkerLoop xs = pre ++ WEvent.read s d :: post →
      (isRequest s d ∧ ∃ ok n post2,
        post = WEvent.sleep (sleepArg (decodeInt d)) :: WEvent.write (decodeInt d) ok n :: post2 ∧
        (post2 = [] ∨ ∃ s2 d2 post3, post2 = WEvent.read s2 d2 :: post3)) ∨
      (¬ isRequest s d ∧ post = []) := by
  induction xs with
  | nil =>
    intro pre s d post h
    cases pre with
    | nil =>
      simp only [WorkerLoop, List.nil_append, List.cons.injEq, WEvent.read.injEq] at h
      obtain ⟨⟨rfl, rfl⟩, rfl⟩ := h
      right; exact ⟨by simp [isRequest], rfl⟩
    | cons p pre =>
      simp [WorkerLoop] at h
  | cons x xs ih =>
    intro pre s d post h
    rw [WorkerLoop_cons] at h
    by_cases hr : isRequest x.success x.data
    · rw [if_pos hr] at h
      cases pre with
      | nil =>
        simp only [List.nil_append, List.cons.injEq, WEvent.read.injEq] at h
        obtain ⟨⟨rfl, rfl⟩, rfl⟩ := h
        left
        refine ⟨hr, _, _, _, rfl, ?_⟩
        split_ifs
        · right; exact WorkerLoop_head xs
        · left; rfl
      | cons p pre =>
        simp only [List.cons_append, List.cons.injEq] at h
        obtain ⟨_, h⟩ := h
        cases pre with
        | nil => simp at h
        | cons p2 pre =>
          simp only [List.cons_append, List.cons.injEq] at h
          obtain ⟨_, h⟩ := h
          cases pre with
          | nil => simp at h
          | cons p3 pre =>
            simp only [List.cons_append, List.cons.injEq] at h
            obtain ⟨_, h⟩ := h
            split_ifs at h
            · exact ih pre s d post h
            · simp at h
    · rw [if_neg hr] at h
      cases pre with
      | nil =>
        simp only [List.nil_append, List.cons.injEq, WEvent.read.injEq] at h
        obtain ⟨⟨rfl, rfl⟩, rfl⟩ := h
        right; exact ⟨hr, rfl⟩
      | cons p pre =>
        simp at h

theorem responses_eq_requests (xs : List WEnv) :
    responsesWritten (WorkerLoop xs) =
      (requestsRead (WorkerLoop xs)).filter (fun v => v != 0) := by
  induction xs with
  | nil => simp [WorkerLoop, requestsRead, responsesWritten]
  | cons x xs ih =>
    rw [WorkerLoop_cons]
    by_cases hr : isRequest x.success x.data
    · obtain ⟨h1, h2, h3⟩ := hr
      rw [if_pos ⟨h1, h2, h3⟩]
      simp only [requestsRead, responsesWritten, h1, h2, Bool.true_and, beq_self_eq_true,
        if_true]
      rw [List.filter_cons_of_pos (by simpa using h3)]
      split_ifs
      · rw [ih]
      · simp [requestsRead, responsesWritten]
    · rw [if_neg hr]
      simp only [requestsRead, responsesWritten]
      split_ifs with hc
      · have hz : decodeInt x.data = 0 := by
          by_contra hne
          apply hr
          simp only [Bool.and_eq_true, beq_iff_eq] at hc
          exact ⟨hc.1, hc.2, hne⟩
        simp [hz, requestsRead]
      · simp [requestsRead]

theorem responses_all_ok (xs : List WEnv)
    (hw : ∀ x ∈ xs, x.write.success = true ∧ 4 ≤ x.write.count) :
    responsesWritten (WorkerLoop xs) =
      (xs.takeWhile (fun x => decide (isRequest x.success x.data))).map
        (fun x => decodeInt x.data) := by
  induction xs with
  | nil => simp [WorkerLoop, responsesWritten]
  | cons x xs ih =>
    rw [WorkerLoop_cons]
    by_cases hr : isRequest x.success x.data
    · rw [if_pos hr, if_pos (hw x (List.mem_cons_self _ _))]
      rw [List.takeWhile_cons_of_pos (by simpa using hr)]
      simp only [responsesWritten, List.map_cons]
      rw [ih (fun y hy => hw y (List.mem_cons_of_mem _ hy))]
    · rw [if_neg hr]
      rw [List.takeWhile_cons_of_neg (by simpa using hr)]
      simp [responsesWritten]

/-- C3: in any run of `WorkerMain`, a `ReadFile` that returns a whole record holding a
non-zero value is followed by the sleep and by exactly one `WriteFile` of that same
value, after which the run ends or the next `ReadFile` comes; so the values written
are, in order, the non-zero values read as whole records.  When every `WriteFile`
succeeds with a whole record, they are the values of the records that come before the
first record that is a failed read, a short read or the value 0. -/
theorem worker_echo (workerType : Int) (xs : List WEnv) :
    (∀ pre s d post, (WorkerMain workerType xs).1 = pre ++ WEvent.read s d :: post →
      s = true → d.length = 4 → decodeInt d ≠ 0 →
      ∃ ok n post2,
        post = WEvent.sleep (sleepArg (decodeInt d)) ::
          WEvent.write (decodeInt d) ok n :: post2 ∧
        (post2 = [] ∨ ∃ s2 d2 post3, post2 = WEvent.read s2 d2 :: post3)) ∧
    responsesWritten (WorkerMain workerType xs).1 =
      (requestsRead (WorkerMain workerType xs).1).filter (fun v => v != 0) ∧
    ((∀ x ∈ xs, x.write.success = true ∧ 4 ≤ x.write.count) →
      responsesWritten (WorkerMain workerType xs).1 =
        (xs.takeWhile (fun x =>
            decide (x.success = true ∧ x.data.length = 4 ∧ decodeInt x.data ≠ 0))).map
          (fun x => decodeInt x.data)) := by
  refine ⟨?_, responses_eq_requests xs, responses_all_ok xs⟩
  intro pre s d post h h1 h2 h3
  rcases WorkerLoop_read xs pre s d post h with ⟨_, hr⟩ | ⟨hn, _⟩
  · exact hr
  · exact absurd ⟨h1, h2, h3⟩ hn

/-- C3 on a worker that receives 5, then 7, then the value 0, with a fourth record
waiting behind. -/
theorem worker_echo_witness :
    (∀ x ∈ [(⟨true, encodeInt 5, Xfer.good⟩ : WEnv), ⟨true, encodeInt 7, Xfer.good⟩,
        ⟨true, encodeInt 0, Xfer.good⟩, ⟨true, encodeInt 9, Xfer.good⟩],
      x.write.success = true ∧ 4 ≤ x.write.count) ∧
    responsesWritten (WorkerMain 1 [⟨true, encodeInt 5, Xfer.good⟩,
        ⟨true, encodeInt 7, Xfer.good⟩, ⟨true, encodeInt 0, Xfer.good⟩,
        ⟨true, encodeInt 9, Xfer.good⟩]).1 =
      ([(⟨true, encodeInt 5, Xfer.good⟩ : WEnv), ⟨true, encodeInt 7, Xfer.good⟩,
        ⟨true, encodeInt 0, Xfer.good⟩, ⟨true, encodeInt 9, Xfer.good⟩].takeWhile (fun x =>
            decide (x.success = true ∧ x.data.length = 4 ∧ decodeInt x.data ≠ 0))).map
          (fun x => decodeInt x.data) ∧
    responsesWritten (WorkerMain 1 [⟨true, encodeInt 5, Xfer.good⟩,
        ⟨true, encodeInt 7, Xfer.good⟩, ⟨true, encodeInt 0, Xfer.good⟩,
        ⟨true, encodeInt 9, Xfer.good⟩]).1 = [5, 7] :=
  ⟨by decide,
   (worker_echo 1 [⟨true, encodeInt 5, Xfer.good⟩, ⟨true, encodeInt 7, Xfer.good⟩,
      ⟨true, encodeInt 0, Xfer.good⟩, ⟨true, encodeInt 9, Xfer.good⟩]).2.2 (by decide),
   by decide⟩

/-- C4: `WorkerMain` always returns 0; in any of its runs a `ReadFile` that returns a
whole record holding the value 0 is the last thing the worker does, so no response is
written for that record and nothing more is read; and a worker whose first record is
the value 0 does nothing but that one read before it returns 0. -/
theorem worker_sentinel (workerType : Int) (xs : List WEnv) :
    (WorkerMain workerType xs).2 = 0 ∧
    (∀ pre s d post, (WorkerMain workerType xs).1 = pre ++ WEvent.read s d :: post →
      s = true → d.length = 4 → decodeInt d = 0 → post = []) ∧
    (∀ x : WEnv, x.success = true → x.data.length = 4 → decodeInt x.data = 0 →
      WorkerMain workerType (x :: xs) = ([WEvent.read true x.data], 0) ∧
      responsesWritten (WorkerMain workerType (x :: xs)).1 = [] ∧
      readCalls (WorkerMain workerType (x :: xs)).1 = 1) := by
  refine ⟨rfl, ?_, ?_⟩
  · intro pre s d post h h1 h2 h3
    rcases WorkerLoop_read xs pre s d post h with ⟨hr, _⟩ | ⟨_, hp⟩
    · exact absurd h3 hr.2.2
    · exact hp
  · intro x h1 h2 h3
    have hn : ¬ isRequest x.success x.data := fun h => h.2.2 h3
    have hl : WorkerLoop (x :: xs) = [WEvent.read true x.data] := by
      rw [WorkerLoop_cons, if_neg hn, h1]
    have hm : WorkerMain workerType (x :: xs) = ([WEvent.read true x.data], 0) := by
      simp only [WorkerMain, hl]
    rw [hm]
    exact ⟨rfl, rfl, rfl⟩

/-- C4 on an idle worker whose first record is the value 0, with more bytes waiting
behind it. -/
theorem worker_sentinel_witness :
    WorkerMain 2 [⟨true, [0, 0, 0, 0], Xfer.good⟩, ⟨true, encodeInt 4, Xfer.good⟩] =
        ([WEvent.read true [0, 0, 0, 0]], 0) ∧
      responsesWritten (WorkerMain 2
        [⟨true, [0, 0, 0, 0], Xfer.good⟩, ⟨true, encodeInt 4, Xfer.good⟩]).1 = [] ∧
      readCalls (WorkerMain 2
        [⟨true, [0, 0, 0, 0], Xfer.good⟩, ⟨true, encodeInt 4, Xfer.good⟩]).1 = 1 :=
  (worker_sentinel 2 [⟨true, encodeInt 4, Xfer.good⟩]).2.2 ⟨true, [0, 0, 0, 0], Xfer.good⟩
    rfl rfl (by decide)

/-! ## The worker as a process and as a function -/

/-- The step `loopStep` and the function `WorkerLoop` are the same loop: when the
`ReadFile` of a process returns what the function is given for its next iteration, the
process goes where `afterRead` says; if that is `working d`, its next step writes the
bytes of `d` and goes where `afterWrite` says, and the function records exactly that
read, sleep and write and goes on in the same way; otherwise both stop after the
read. -/
theorem loopStep_WorkerLoop (x : WEnv) (xs : List WEnv) (rd : Xfer)
    (stdin stdout : List Nat) (hne : stdin ≠ [])
    (hs : (ReadFile stdin 4 rd).success = x.success)
    (hd : (ReadFile stdin 4 rd).data = x.data) :
    loopStep rd x.write Proc.reading stdin stdout =
      (afterRead x.success x.data, (ReadFile stdin 4 rd).pipe, stdout) ∧
    (∀ d, afterRead x.success x.data = Proc.working d →
      loopStep rd x.write (Proc.working d) (ReadFile stdin 4 rd).pipe stdout =
        (afterWrite x.write.success (min x.write.count 4), (ReadFile stdin 4 rd).pipe,
          stdout ++ (encodeInt d).take (min x.write.count 4)) ∧
      WorkerLoop (x :: xs) =
        WEvent.read x.success x.data :: WEvent.sleep (sleepArg d) ::
          WEvent.write d x.write.success (min x.write.count 4) ::
          (match afterWrite x.write.success (min x.write.count 4) with
            | Proc.reading => WorkerLoop xs
            | _ => [])) ∧
    (∀ c, afterRead x.success x.data = Proc.exited c →
      WorkerLoop (x :: xs) = [WEvent.read x.success x.data]) := by
  refine ⟨?_, ?_, ?_⟩
  · have : stdin.isEmpty = false := by
      cases stdin with
      | nil => exact absurd rfl hne
      | cons a l => rfl
    simp only [loopStep, this, hs, hd]
    rfl
  · intro d hw
    constructor
    · simp only [loopStep, WriteFile, encodeInt_length]
    · rw [WorkerLoop, hw]
      simp only [WriteFile, encodeInt_length]
  · intro c hc
    rw [WorkerLoop, hc]

/-! ## Dispatcher and workers together: what a completion carries -/

theorem decode_encode (d : Int) (h : isInt32 d) : decodeInt (encodeInt d) = d := by
  obtain ⟨h1, h2⟩ := h
  simp only [encodeInt, decodeInt, List.getD_cons_zero, List.getD_cons_succ]
  have hu : ((d % 4294967296).toNat : Int) = d % 4294967296 :=
    Int.toNat_of_nonneg (Int.emod_nonneg _ (by decide))
  have hlt : (d % 4294967296).toNat < 4294967296 := by
    have := Int.emod_lt_of_pos d (show (0 : Int) < 4294967296 by decide)
    omega
  generalize (d % 4294967296).toNat = u at hu hlt
  have hsum : u % 256 + 256 * (u / 256 % 256) + 65536 * (u / 65536 % 256) +
      16777216 * (u / 16777216 % 256) = u := by omega
  rw [hsum]
  split_ifs with hc <;> omega

theorem lastDispatched_append (i : Nat) (l1 l2 : List Event) :
    lastDispatched i (l1 ++ l2) =
      match lastDispatched i l2 with
      | some d => some d
      | none => lastDispatched i l1 := by
  induction l1 with
  | nil =>
    simp only [List.nil_append, lastDispatched]
    cases lastDispatched i l2 <;> rfl
  | cons ev l ih =>
    rw [List.cons_append, lastDispatched, ih, lastDispatched]
    cases lastDispatched i l2 with
    | some d => rfl
    | none => rfl

theorem lastDispatched_none (i : Nat) (l : List Event)
    (h : ∀ job, Event.dispatched i job ∉ l) : lastDispatched i l = none := by
  induction l with
  | nil => rfl
  | cons ev l ih =>
    rw [lastDispatched, ih (fun job hm => h job (List.mem_cons_of_mem _ hm))]
    cases ev with
    | completed j t d => rfl
    | dispatched j job =>
      have : j ≠ i := by
        rintro rfl
        exact h job (List.mem_cons_self _ _)
      simp [dispatchedTo, this]
    | writeFailed j => rfl

theorem lastDispatched_append_none (i : Nat) (l1 l2 : List Event)
    (h : ∀ job, Event.dispatched i job ∉ l2) :
    lastDispatched i (l1 ++ l2) = lastDispatched i l1 := by
  rw [lastDispatched_append, lastDispatched_none i l2 h]

theorem LogOk_append (out evs : List Event) (h : LogOk out)
    (hevs : ∀ pre i t v post, evs = pre ++ Event.completed i t v :: post →
      lastDispatched i (out ++ pre) = some v) :
    LogOk (out ++ evs) := by
  intro pre i t v post heq
  rcases List.append_eq_append_iff.1 heq with ⟨a, h1, h2⟩ | ⟨c, h1, h2⟩
  · rw [h1]
    exact hevs a i t v post h2
  · cases c with
    | nil =>
      simp only [List.append_nil, List.nil_append] at h1 h2
      have := hevs [] i t v post h2.symm
      rw [List.append_nil] at this
      rw [← h1]; exact this
    | cons x c =>
      simp only [List.cons_append, List.cons.injEq] at h2
      obtain ⟨rfl, _⟩ := h2
      exact h pre i t v c h1

theorem ReadFile_whole (d : Int) (o : Xfer) (h : 4 ≤ o.count) :
    ReadFile (encodeInt d) 4 o = { pipe := [], success := o.success, data := encodeInt d } := by
  have hl := encodeInt_length d
  have hk : min (min 4 o.count) (encodeInt d).length = 4 := by rw [hl]; omega
  simp only [ReadFile, hk]
  rw [← hl, List.take_length, List.drop_length]

theorem encodeInt_ne_nil (d : Int) : encodeInt d ≠ [] := by
  intro h
  have := encodeInt_length d
  rw [h] at this
  simp at this

/-- The poll of one worker keeps `WOk`, and a completion it prints carries the
duration last dispatched to that worker. -/
theorem pollWorker_WOk (e : Env) (hok : e.allOk) (k : Nat) (last : Option Int)
    (w : WorkerInfo) (pr : Process) (h : WOk last w pr) :
    WOk last (pollWorker e k w).1 pr ∧
    ∀ ev ∈ (pollWorker e k w).2, ∃ t v, ev = Event.completed k t v ∧ last = some v := by
  obtain ⟨hpeek, ⟨hrs, hrc⟩, _⟩ := hok k
  rcases h with ⟨hb, h1, h2, h3⟩ | ⟨hb, d, hl, hd, hz, hcases⟩
  · have : pollWorker e k w = (w, []) := by simp [pollWorker, hb]
    rw [this]
    exact ⟨Or.inl ⟨hb, h1, h2, h3⟩, by simp⟩
  · have hempty : w.hRead = [] → pollWorker e k w = (w, []) := by
      intro h0
      simp [pollWorker, hb, h0]
    rcases hcases with ⟨h1, h2, h3⟩ | ⟨h1, h2, h3⟩ | ⟨h1, h2, h3⟩
    · rw [hempty h2]
      exact ⟨Or.inr ⟨hb, d, hl, hd, hz, Or.inl ⟨h1, h2, h3⟩⟩, by simp⟩
    · rw [hempty h2]
      exact ⟨Or.inr ⟨hb, d, hl, hd, hz, Or.inr (Or.inl ⟨h1, h2, h3⟩)⟩, by simp⟩
    · have hlen : 4 ≤ w.hRead.length := by rw [h2, encodeInt_length]
      have hp : pollWorker e k w =
          ({ w with hRead := [], busy := false },
            [Event.completed k w.worker_type d]) := by
        unfold pollWorker
        simp only [hb, hpeek, hlen, if_true, decide_True, Bool.and_self]
        rw [h2, ReadFile_whole d _ hrc]
        simp [ReadRes.bytesRead, hrs, encodeInt_length, decode_encode d hd]
      rw [hp]
      refine ⟨Or.inl ⟨rfl, h1, rfl, Or.inr h3⟩, ?_⟩
      intro ev hev
      simp only [List.mem_singleton] at hev
      exact ⟨_, _, hev, hl⟩

theorem workerStep_launched (rd wr : Xfer) (t : Int) (pr : Process) (stdin stdout : List Nat)
    (h : pr.stage = Stage.launched) :
    workerStep true rd wr t pr stdin stdout =
      ({ stage := Stage.inWorker Proc.reading, cout := pr.cout ++ startupText t },
        stdin, stdout) := by
  simp [workerStep, h]

theorem workerStep_reading (b : Bool) (rd wr : Xfer) (t : Int) (pr : Process)
    (stdin stdout : List Nat) (h : pr.stage = Stage.inWorker Proc.reading) :
    workerStep b rd wr t pr stdin stdout =
      ({ stage := Stage.inWorker (loopStep rd wr Proc.reading stdin stdout).1,
         cout := pr.cout },
        (loopStep rd wr Proc.reading stdin stdout).2.1,
        (loopStep rd wr Proc.reading stdin stdout).2.2) := by
  simp [workerStep, h]

theorem workerStep_working (b : Bool) (rd wr : Xfer) (t : Int) (pr : Process)
    (stdin stdout : List Nat) (d : Int) (h : pr.stage = Stage.inWorker (Proc.working d)) :
    workerStep b rd wr t pr stdin stdout =
      ({ stage := Stage.inWorker (loopStep rd wr (Proc.working d) stdin stdout).1,
         cout := pr.cout },
        (loopStep rd wr (Proc.working d) stdin stdout).2.1,
        (loopStep rd wr (Proc.working d) stdin stdout).2.2) := by
  simp [workerStep, h]

/-- A step of a worker process whose calls do not fail, under a runtime that keeps
what line 74 printed in the stream buffer, keeps `WOk`. -/
theorem workerStep_WOk (rd wr : Xfer) (hrd : rd.success = true ∧ 4 ≤ rd.count)
    (hwr : wr.success = true ∧ 4 ≤ wr.count) (last : Option Int) (w : WorkerInfo)
    (pr : Process) (h : WOk last w pr) :
    WOk last
      { w with hWrite := (workerStep true rd wr w.worker_type pr w.hWrite w.hRead).2.1,
               hRead := (workerStep true rd wr w.worker_type pr w.hWrite w.hRead).2.2 }
      (workerStep true rd wr w.worker_type pr w.hWrite w.hRead).1 := by
  have hblocked : w.hWrite = [] →
      loopStep rd wr Proc.reading w.hWrite w.hRead = (Proc.reading, w.hWrite, w.hRead) := by
    intro h1
    simp [loopStep, h1]
  rcases h with ⟨hb, h1, h2, h3⟩ | ⟨hb, d, hl, hd, hz, hcases⟩
  · rcases h3 with h3 | h3
    · rw [workerStep_launched rd wr _ pr _ _ h3]
      exact Or.inl ⟨hb, h1, h2, Or.inr rfl⟩
    · rw [workerStep_reading true rd wr _ pr _ _ h3, hblocked h1]
      exact Or.inl ⟨hb, h1, h2, Or.inr rfl⟩
  · rcases hcases with ⟨h1, h2, h3⟩ | ⟨h1, h2, h3⟩ | ⟨h1, h2, h3⟩
    · rcases h3 with h3 | h3
      · rw [workerStep_launched rd wr _ pr _ _ h3]
        exact Or.inr ⟨hb, d, hl, hd, hz, Or.inl ⟨h1, h2, Or.inr rfl⟩⟩
      · have hne : w.hWrite.isEmpty = false := by
          rw [h1]
          cases hc : encodeInt d with
          | nil => exact absurd hc (encodeInt_ne_nil d)
          | cons a l => rfl
        have hs : loopStep rd wr Proc.reading w.hWrite w.hRead =
            (Proc.working d, [], w.hRead) := by
          simp only [loopStep, hne]
          rw [h1, ReadFile_whole d _ hrd.2, hrd.1]
          simp [afterRead, encodeInt_length, decode_encode d hd, hz]
        rw [workerStep_reading true rd wr _ pr _ _ h3, hs]
        exact Or.inr ⟨hb, d, hl, hd, hz, Or.inr (Or.inl ⟨rfl, h2, rfl⟩)⟩
    · have hs : loopStep rd wr (Proc.working d) w.hWrite w.hRead =
          (Proc.reading, w.hWrite, encodeInt d) := by
        simp only [loopStep]
        rw [h2, WriteFile_whole _ _ _ hwr.2]
        simp [afterWrite, hwr.1]
      rw [workerStep_working true rd wr _ pr _ _ d h3, hs]
      exact Or.inr ⟨hb, d, hl, hd, hz, Or.inr (Or.inr ⟨h1, rfl, rfl⟩)⟩
    · rw [workerStep_reading true rd wr _ pr _ _ h3, hblocked h1]
      exact Or.inr ⟨hb, d, hl, hd, hz, Or.inr (Or.inr ⟨h1, h2, rfl⟩)⟩

theorem pollLoop_mem (e : Env) (ws : List WorkerInfo) :
    ∀ idx, ∀ ev ∈ (pollLoop e idx ws).2,
      ∃ k w, ws[k]? = some w ∧ ev ∈ (pollWorker e (idx + k) w).2 := by
  induction ws with
  | nil => intro idx ev hev; simp [pollLoop] at hev
  | cons a ws ih =>
    intro idx ev hev
    simp only [pollLoop, List.mem_append] at hev
    rcases hev with h | h
    · exact ⟨0, a, by simp, by simpa using h⟩
    · obtain ⟨k, w, hk, hm⟩ := ih (idx + 1) ev h
      refine ⟨k + 1, w, by simpa using hk, ?_⟩
      have : idx + (k + 1) = idx + 1 + k := by omega
      rw [this]; exact hm

theorem pollLoop_back (e : Env) (ws : List WorkerInfo) (k : Nat) (w2 : WorkerInfo)
    (h : (pollLoop e 0 ws).1[k]? = some w2) :
    ∃ w, ws[k]? = some w ∧ w2 = (pollWorker e k w).1 := by
  obtain ⟨w, hw, _⟩ := pollLoop_rel e ws 0 k w2 h
  obtain ⟨h1, _⟩ := pollLoop_get e ws 0 k w hw
  rw [h, Nat.zero_add] at h1
  exact ⟨w, hw, Option.some.inj h1⟩

theorem no_dispatched_of_completed (l : List Event)
    (h : ∀ ev ∈ l, ∃ i t d, ev = Event.completed i t d) (i : Nat) :
    ∀ job, Event.dispatched i job ∉ l := by
  intro job hm
  obtain ⟨_, _, _, hc⟩ := h _ hm
  cases hc

theorem pollPhase_SysInv (e : Env) (hok : e.allOk) (m : MState) (ps : List Process)
    (h : SysInv m ps) : SysInv (pollPhase e m) ps := by
  obtain ⟨hq, hlog, hws⟩ := h
  have hev := pollLoop_events e m.workers 0
  have hlast : ∀ k, lastDispatched k (pollPhase e m).out = lastDispatched k m.out := by
    intro k
    exact lastDispatched_append_none k _ _ (no_dispatched_of_completed _ hev k)
  refine ⟨hq, ?_, ?_⟩
  · refine LogOk_append _ _ hlog ?_
    intro pre i t v post heq
    have hpre : ∀ ev ∈ pre, ∃ i t d, ev = Event.completed i t d := by
      intro ev hm
      apply hev
      rw [heq]
      exact List.mem_append_left _ hm
    rw [lastDispatched_append_none i _ _ (no_dispatched_of_completed _ hpre i)]
    have hmem : Event.completed i t v ∈ (pollLoop e 0 m.workers).2 := by
      rw [heq]
      exact List.mem_append_right _ (List.mem_cons_self _ _)
    obtain ⟨k, w, hk, hm⟩ := pollLoop_mem e m.workers 0 _ hmem
    rw [Nat.zero_add] at hm
    obtain ⟨p, _, hwok⟩ := hws k w hk
    obtain ⟨t2, v2, heq2, hl⟩ := (pollWorker_WOk e hok k _ w p hwok).2 _ hm
    simp only [Event.completed.injEq] at heq2
    obtain ⟨rfl, _, rfl⟩ := heq2
    exact hl
  · intro k w2 hk
    obtain ⟨w, hw, rfl⟩ := pollLoop_back e m.workers k w2 hk
    obtain ⟨p, hp, hwok⟩ := hws k w hw
    refine ⟨p, hp, ?_⟩
    rw [hlast]
    exact (pollWorker_WOk e hok k _ w p hwok).1

/-- The scan of lines 215-229 when no write fails, worker by worker: a worker is left
as it was and no dispatch line is about it, or it was idle and of the job's type, got
the bytes of the duration, became busy, and the one line printed is its dispatch
line. -/
theorem dispatchScan_sys (e : Env) (hok : e.sendsOk) (job : Job) (ws : List WorkerInfo) :
    ∀ (idx k : Nat) (w2 : WorkerInfo), (dispatchScan e job idx ws).workers[k]? = some w2 →
      ∃ w, ws[k]? = some w ∧
        ((w2 = w ∧ ∀ jb, Event.dispatched (idx + k) jb ∉ (dispatchScan e job idx ws).events) ∨
         (w.busy = false ∧
          w2 = { w with hWrite := w.hWrite ++ encodeInt job.duration, busy := true } ∧
          (dispatchScan e job idx ws).events = [Event.dispatched (idx + k) job] ∧
          (dispatchScan e job idx ws).dispatched = true)) := by
  induction ws with
  | nil => intro idx k w2 h; simp [dispatchScan] at h
  | cons a ws ih =>
    intro idx k w2 h
    have hk : ∀ k, idx + (k + 1) = idx + 1 + k := by intro k; omega
    have hrest : ∀ jb, Event.dispatched idx jb ∉ (dispatchScan e job (idx + 1) ws).events := by
      intro jb hm
      have := dispatchScan_idx e job ws (idx + 1) _ hm
      simp only [Event.idx] at this
      omega
    by_cases hc : (a.worker_type == job.type && !a.busy) = true
    · have hscan : dispatchScan e job idx (a :: ws) =
          { workers := { a with hWrite := a.hWrite ++ encodeInt job.duration,
                                busy := true } :: ws,
            events := [Event.dispatched idx job], dispatched := true } := by
        have hm : matchesJob job a := by
          simp only [Bool.and_eq_true, beq_iff_eq, Bool.not_eq_true'] at hc
          exact hc
        have := dispatchScan_found e job hok [] a ws hm idx (by simp)
        simpa using this
      rw [hscan] at h ⊢
      cases k with
      | zero =>
        simp only [List.getElem?_cons_zero, Option.some.injEq] at h
        refine ⟨a, by simp, Or.inr ⟨?_, h.symm, rfl, rfl⟩⟩
        simp only [Bool.and_eq_true, Bool.not_eq_true'] at hc
        exact hc.2
      | succ k =>
        simp only [List.getElem?_cons_succ] at h
        refine ⟨w2, by simpa using h, Or.inl ⟨rfl, ?_⟩⟩
        intro jb hm
        simp only [List.mem_singleton, Event.dispatched.injEq] at hm
        omega
    · have hscan : dispatchScan e job idx (a :: ws) =
          { dispatchScan e job (idx + 1) ws with
            workers := a :: (dispatchScan e job (idx + 1) ws).workers } := by
        rw [dispatchScan]
        simp only [hc]
        rfl
      rw [hscan] at h ⊢
      cases k with
      | zero =>
        simp only [List.getElem?_cons_zero, Option.some.injEq] at h
        exact ⟨a, by simp, Or.inl ⟨h.symm, hrest⟩⟩
      | succ k =>
        simp only [List.getElem?_cons_succ] at h
        obtain ⟨w, hw, hr⟩ := ih (idx + 1) k w2 h
        refine ⟨w, by simpa using hw, ?_⟩
        rw [hk k]
        exact hr

theorem dispatchScan_no_completed (e : Env) (job : Job) (ws : List WorkerInfo) :
    ∀ idx, ∀ ev ∈ (dispatchScan e job idx ws).events, ∀ i t v, ev ≠ Event.completed i t v := by
  intro idx ev hev i t v heq
  subst heq
  rcases dispatchScan_cases e job ws idx with ⟨_, h2⟩ | ⟨_, k, w, fails, _, _, _, _, hevs, hfl⟩
  · obtain ⟨j, hj⟩ := h2 _ hev
    cases hj
  · rw [hevs] at hev
    rcases List.mem_append.1 hev with h | h
    · obtain ⟨j, hj⟩ := hfl _ h
      cases hj
    · simp at h

theorem dispatchPhase_SysInv (e : Env) (hok : e.allOk) (m : MState) (ps : List Process)
    (h : SysInv m ps) : SysInv (dispatchPhase e m) ps := by
  obtain ⟨hq, hlog, hws⟩ := h
  have hsend : e.sendsOk := fun i => (hok i).2.2
  cases hjq : m.jobQueue with
  | nil =>
    have : dispatchPhase e m = m := by simp [dispatchPhase, hjq]
    rw [this]
    exact ⟨hq, hlog, hws⟩
  | cons job rest =>
    rw [dispatchPhase_cons e m job rest hjq]
    simp only [hjq] at hq
    refine ⟨?_, ?_, ?_⟩
    · intro j hj
      apply hq
      dsimp only at hj
      split_ifs at hj
      · exact List.mem_cons_of_mem _ hj
      · exact hj
    · refine LogOk_append _ _ hlog ?_
      intro pre i t v post heq
      exfalso
      refine dispatchScan_no_completed e job m.workers 0 (Event.completed i t v) ?_ i t v rfl
      rw [heq]
      exact List.mem_append_right _ (List.mem_cons_self _ _)
    · intro k w2 hk
      obtain ⟨w, hw, hr⟩ := dispatchScan_sys e hsend job m.workers 0 k w2 hk
      rw [Nat.zero_add] at hr
      obtain ⟨p, hp, hwok⟩ := hws k w hw
      refine ⟨p, hp, ?_⟩
      rcases hr with ⟨rfl, hno⟩ | ⟨hb, rfl, hev, _⟩
      · dsimp only
        rw [lastDispatched_append_none k _ _ hno]
        exact hwok
      · dsimp only
        rw [hev, lastDispatched_append]
        have hl : lastDispatched k [Event.dispatched k job] = some job.duration := by
          simp [lastDispatched, dispatchedTo]
        rw [hl]
        have hjob := hq job (List.mem_cons_self _ _)
        rcases hwok with ⟨_, h1, h2, h3⟩ | ⟨hb2, _⟩
        · refine Or.inr ⟨rfl, job.duration, rfl, hjob.1, hjob.2, Or.inl ⟨?_, h2, h3⟩⟩
          simp [h1]
        · rw [hb] at hb2; cases hb2

theorem workerAct_get (b : Bool) (rd wr : Xfer) (ws : List WorkerInfo) :
    ∀ (idx : Nat) (ps : List Process) (k : Nat) (w2 : WorkerInfo),
      (workerAct b rd wr idx ws ps).1[k]? = some w2 →
      ∃ w, ws[k]? = some w ∧
        ((w2 = w ∧ (workerAct b rd wr idx ws ps).2[k]? = ps[k]?) ∨
         (∃ p, ps[k]? = some p ∧
           w2 = { w with
             hWrite := (workerStep b rd wr w.worker_type p w.hWrite w.hRead).2.1,
             hRead := (workerStep b rd wr w.worker_type p w.hWrite w.hRead).2.2 } ∧
           (workerAct b rd wr idx ws ps).2[k]? =
             some (workerStep b rd wr w.worker_type p w.hWrite w.hRead).1)) := by
  induction ws with
  | nil =>
    intro idx ps k w2 h
    have : workerAct b rd wr idx [] ps = ([], ps) := by
      cases idx <;> rfl
    rw [this] at h
    simp at h
  | cons a ws ih =>
    intro idx ps k w2 h
    cases ps with
    | nil =>
      have hnil : workerAct b rd wr idx (a :: ws) [] = (a :: ws, []) := by
        cases idx <;> rfl
      rw [hnil] at h ⊢
      exact ⟨w2, h, Or.inl ⟨rfl, rfl⟩⟩
    | cons p ps =>
      cases idx with
      | zero =>
        simp only [workerAct] at h ⊢
        cases k with
        | zero =>
          simp only [List.getElem?_cons_zero, Option.some.injEq] at h
          exact ⟨a, by simp, Or.inr ⟨p, by simp, h.symm, by simp⟩⟩
        | succ k =>
          simp only [List.getElem?_cons_succ] at h
          exact ⟨w2, by simpa using h, Or.inl ⟨rfl, by simp⟩⟩
      | succ idx =>
        simp only [workerAct] at h ⊢
        cases k with
        | zero =>
          simp only [List.getElem?_cons_zero, Option.some.injEq] at h
          exact ⟨a, by simp, Or.inl ⟨h.symm, by simp⟩⟩
        | succ k =>
          simp only [List.getElem?_cons_succ] at h
          obtain ⟨w, hw, hr⟩ := ih idx ps k w2 h
          exact ⟨w, by simpa using hw, by simpa using hr⟩

theorem workerAct_SysInv (idx : Nat) (rd wr : Xfer)
    (hrd : rd.success = true ∧ 4 ≤ rd.count) (hwr : wr.success = true ∧ 4 ≤ wr.count)
    (m : MState) (ps : List Process) (h : SysInv m ps) :
    SysInv { m with workers := (workerAct true rd wr idx m.workers ps).1 }
      (workerAct true rd wr idx m.workers ps).2 := by
  obtain ⟨hq, hlog, hws⟩ := h
  refine ⟨hq, hlog, ?_⟩
  intro k w2 hk
  obtain ⟨w, hw, hr⟩ := workerAct_get true rd wr m.workers idx ps k w2 hk
  obtain ⟨p, hp, hwok⟩ := hws k w hw
  rcases hr with ⟨rfl, hps⟩ | ⟨p2, hp2, rfl, hps⟩
  · exact ⟨p, by rw [← hp]; exact hps, hwok⟩
  · rw [hp] at hp2
    obtain rfl := Option.some.inj hp2
    exact ⟨_, hps, workerStep_WOk rd wr hrd hwr _ w p hwok⟩

theorem iteration_SysInv (e : Env) (hok : e.allOk) (m : MState) (ps : List Process)
    (h : SysInv m ps) : SysInv (iteration e m).1 ps := by
  have hp := pollPhase_SysInv e hok m ps h
  unfold iteration
  dsimp only
  split_ifs
  · exact dispatchPhase_SysInv e hok _ ps hp
  · exact hp
  · exact hp

theorem sysLoop_SysInv (as : List SysAction) :
    ∀ s : Sys, s.buffered = true → (∀ a ∈ as, a.ok) → SysInv s.mgr s.procs →
      SysInv (sysLoop as s).1.mgr (sysLoop as s).1.procs := by
  induction as with
  | nil => intro s _ _ h; exact h
  | cons a as ih =>
    intro s hb hok h
    have hrest : ∀ b ∈ as, b.ok := fun b hb => hok b (List.mem_cons_of_mem _ hb)
    have ha := hok a (List.mem_cons_self _ _)
    cases a with
    | iter e =>
      have hi := iteration_SysInv e ha s.mgr s.procs h
      simp only [sysLoop]
      split_ifs
      · exact hi
      · exact ih _ hb hrest hi
    | worker idx rd wr =>
      simp only [sysLoop]
      refine ih _ hb hrest ?_
      dsimp only
      rw [hb]
      exact workerAct_SysInv idx rd wr ha.1 ha.2 s.mgr s.procs h

theorem start_SysInv (types : List Int) (queue : List Job)
    (hq : ∀ j ∈ queue, isInt32 j.duration ∧ j.duration ≠ 0) :
    SysInv (Sys.start true types queue).mgr (Sys.start true types queue).procs := by
  refine ⟨hq, ?_, ?_⟩
  · intro pre i t v post h
    simp [Sys.start] at h
  · intro k w hk
    simp only [Sys.start, spawnWorkers, List.getElem?_map, Option.map_eq_some'] at hk ⊢
    obtain ⟨t, ht, rfl⟩ := hk
    exact ⟨_, ⟨t, ht, rfl⟩, Or.inl ⟨rfl, rfl, rfl, Or.inl rfl⟩⟩

/-- What holds of the echo protocol by itself: under a runtime that keeps what line 74
printed in the stream buffer until the process ends, with every job duration a
non-zero value of type `int` (so that no worker process ends while the dispatcher
polls) and no call failing, every completion line carries the duration of the job most
recently dispatched to the same worker. -/
theorem completions_match_while_text_buffered (types : List Int) (queue : List Job)
    (as : List SysAction) (hq : ∀ j ∈ queue, isInt32 j.duration ∧ j.duration ≠ 0)
    (hok : ∀ a ∈ as, a.ok) :
    ∀ pre i t v post,
      (sysLoop as (Sys.start true types queue)).1.mgr.out =
          pre ++ Event.completed i t v :: post →
        lastDispatched i pre = some v := by
  intro pre i t v post h
  exact (sysLoop_SysInv as _ rfl hok (start_SysInv types queue hq)).2.1 pre i t v post h

theorem startupText_head :
    (startupText 1).take 4 = [87, 111, 114, 107] ∧ (startupText 1).length = 45 ∧
    decodeInt [87, 111, 114, 107] = 1802661719 := by
  decide

end SystemIPC
